import Mathlib

/-!
University admission procedure: wave-based allocation.

A shallow embedding of `task/main.go` and a verification of its allocation
algorithm.

Conventions of the embedding:

* `float64` scores are exact rationals (`ℚ`).  The only non-finite value the
  code can create from finite inputs is the `0/0` of `getExamMeanScore` for a
  department without subject list; it is represented by `none`.
* a Go `map[string][]Student` is a total function `String → List Student`:
  reading an absent key yields the empty slice, as in Go.
* a run-time panic (index out of range) is the result `none`.
* a Go `int` is an integer (`Int`).  On the runs of `main`, which start from
  empty rosters, the one subtraction `quota - len(admitted[dep])` stays within
  the 64-bit range whenever `quota` does (`distribute_length_le_max`), so no
  wrap-around can occur there.
* `slices.SortFunc` is the insertion sort that the Go library runs on slices of
  at most twelve elements; for a comparator that is a strict total order on the
  slice every correct sort returns the same sequence.
* what `writeAdmissions` writes and `printAdmissions` prints is the value they
  return here: per department, the lines as pairs of a full name and a score.
-/

namespace Admission

/-! ## Data model -/

/-- Go: `type ExamScore struct { Subject string; Score float64 }`. -/
structure ExamScore where
  Subject : String
  Score : ℚ
deriving DecidableEq

/-- Go: `type Student struct { FullName; EntranceExamScore; ExamScores; Departments }`. -/
structure Student where
  FullName : String
  EntranceExamScore : ℚ
  ExamScores : List ExamScore
  Departments : List String
deriving DecidableEq

/-- Go: `map[string][]Student`, read with the zero value for absent keys. -/
abbrev Rosters := String → List Student

/-- Go: `const admissionStages int = 3`. -/
def admissionStages : Nat := 3

/-- Go: the department list built in `main`. -/
def mainDepartments : List String :=
  ["Biotech", "Chemistry", "Engineering", "Mathematics", "Physics"]

/-! ## Scores -/

/-- Go: the table `depToSubjects` inside `getExamMeanScore` (absent key: nil slice). -/
def depToSubjects (dep : String) : List String :=
  if dep = "Physics" then ["Physics", "Math"]
  else if dep = "Chemistry" then ["Chemistry"]
  else if dep = "Mathematics" then ["Math"]
  else if dep = "Engineering" then ["ComputerScience", "Math"]
  else if dep = "Biotech" then ["Chemistry", "Physics"]
  else []

/-- Go: the two nested loops of `getExamMeanScore`; every score of the applicant
whose subject equals `subj` is added, for every `subj` of the department. -/
def sumScores (scores : List ExamScore) (subjects : List String) : ℚ :=
  subjects.foldl
    (fun sum subj =>
      scores.foldl (fun sum score => if score.Subject = subj then sum + score.Score else sum) sum)
    0

/-- Go: `getExamMeanScore`.  The result `none` is the NaN of `0 / 0`, which arises
exactly when the department has no subject list. -/
def getExamMeanScore (s : Student) (dep : String) : Option ℚ :=
  let subjects := depToSubjects dep
  let sum := sumScores s.ExamScores subjects
  if subjects.length = 0 then none else some (sum / (subjects.length : ℚ))

/-- Go: `getBestScore`.  The comparison `meanScore > entranceScore` is false for a
NaN mean, so the entrance score is returned then. -/
def getBestScore (s : Student) (dep : String) : ℚ :=
  let entranceScore := s.EntranceExamScore
  match getExamMeanScore s dep with
  | some meanScore => if meanScore > entranceScore then meanScore else entranceScore
  | none => entranceScore

/-! ## Ordering -/

/-- Lexicographic three-way comparison of two code sequences. -/
def compareCodes : List Nat → List Nat → Int
  | [], [] => 0
  | [], _ :: _ => -1
  | _ :: _, [] => 1
  | a :: as, b :: bs => if a < b then -1 else if b < a then 1 else compareCodes as bs

/-- Go: `strings.Compare`, the lexicographic comparison of the two strings
(for UTF-8 text the byte order is the order of the code points). -/
def stringsCompare (a b : String) : Int :=
  compareCodes (a.toList.map Char.toNat) (b.toList.map Char.toNat)

/-- Strict lexicographic order of two names, as a relation. -/
def nameLess (a b : String) : Prop :=
  List.Lex (fun m n : Nat => m < n) (a.toList.map Char.toNat) (b.toList.map Char.toNat)

/-- Go: the comparison closure passed to `slices.SortFunc`. -/
def cmpStudents (dep : String) (a b : Student) : Int :=
  let scoreA := getBestScore a dep
  let scoreB := getBestScore b dep
  if scoreA ≠ scoreB then
    if scoreA > scoreB then -1 else 1
  else stringsCompare a.FullName b.FullName

/-- Inner loop of the insertion sort: `x` moves left past every element it
compares below.  The sorted prefix is held in reverse (last element first). -/
def insertLeft {α : Type} (cmp : α → α → Int) (x : α) : List α → List α
  | [] => [x]
  | y :: ys => if cmp x y < 0 then y :: insertLeft cmp x ys else x :: y :: ys

/-- Go: `slices.SortFunc` (insertion sort, left to right). -/
def sortFunc {α : Type} (cmp : α → α → Int) (data : List α) : List α :=
  (data.foldl (fun sortedRev x => insertLeft cmp x sortedRev) []).reverse

/-! ## One distribution wave -/

/-- Go: `xs[i]` for an `int` index; `none` is the index-out-of-range panic. -/
def index {α : Type} (xs : List α) (i : Int) : Option α :=
  if i < 0 then none else xs.get? i.toNat

/-- Go: the first loop of `processDistributionStage`, which files every remaining
student under the department named at rank `stage`. -/
def collectApplicants (stage : Int) : List Student → Rosters → Option Rosters
  | [], applicants => some applicants
  | student :: rest, applicants =>
    match index student.Departments stage with
    | none => none
    | some dep =>
      collectApplicants stage rest
        (Function.update applicants dep (applicants dep ++ [student]))

/-- Go: the second loop of `processDistributionStage`: per department, sort the
applicants and append the first `numAdmit` of them to the roster. -/
def admitLoop (quota : Int) : List String → Rosters → Rosters → Rosters
  | [], _, admitted => admitted
  | dep :: deps, applicants, admitted =>
    if (applicants dep).length = 0 then admitLoop quota deps applicants admitted
    else
      let sorted := sortFunc (cmpStudents dep) (applicants dep)
      let toAdmit : Int := quota - ((admitted dep).length : Int)
      let numAdmit : Int := min toAdmit (sorted.length : Int)
      admitLoop quota deps (Function.update applicants dep sorted)
        (if numAdmit > 0 then
          Function.update admitted dep (admitted dep ++ sorted.take numAdmit.toNat)
        else admitted)

/-- Go: the key set `accepted`: the full names of everybody on the roster of a
listed department. -/
def acceptedNames (departments : List String) (admitted : Rosters) : List String :=
  departments.flatMap (fun dep => (admitted dep).map Student.FullName)

/-- Go: `processDistributionStage`; returns the new `admitted` map and the new
`*remaining`, or `none` when a preference list is too short (panic). -/
def processDistributionStage (stage quota : Int) (departments : List String)
    (admitted : Rosters) (remaining : List Student) : Option (Rosters × List Student) :=
  match collectApplicants stage remaining (fun _ => []) with
  | none => none
  | some applicants =>
    let admitted' := admitLoop quota departments applicants admitted
    let accepted := acceptedNames departments admitted'
    some (admitted', remaining.filter (fun student => decide (student.FullName ∉ accepted)))

/-- Go: the loop of `main`, run for `n` waves starting at wave `stage`. -/
def runStages (quota : Int) (departments : List String) :
    Nat → Int → Rosters × List Student → Option (Rosters × List Student)
  | 0, _, st => some st
  | n + 1, stage, st =>
    match processDistributionStage stage quota departments st.1 st.2 with
    | none => none
    | some st' => runStages quota departments n (stage + 1) st'

/-- Go: the state of `main` after the first `n` waves, from empty rosters and the
whole pool. -/
def distribute (n : Nat) (quota : Int) (departments : List String) (students : List Student) :
    Option (Rosters × List Student) :=
  runStages quota departments n 0 (fun _ => [], students)

/-! ## Output -/

/-- Go: `writeAdmissions`.  For each listed department, in turn, the roster is
sorted in place and one line per applicant (full name, best score) goes to the
file of the department, named `strings.ToLower(dep) + ".txt"`; the result lists,
per department, the lines written.  The decimal rendering `%.2f` of the score is
left out. -/
def writeAdmissions : List String → Rosters → List (String × List (String × ℚ))
  | [], _ => []
  | dep :: deps, admitted =>
    let students := sortFunc (cmpStudents dep) (admitted dep)
    (dep, students.map (fun student => (student.FullName, getBestScore student dep))) ::
      writeAdmissions deps (Function.update admitted dep students)

/-- Go: `printAdmissions`.  Same loop as `writeAdmissions`; the lines carry the
subject mean (rendered with `%.1f` by the code) and go to the standard output
under the name of the department. -/
def printAdmissions : List String → Rosters → List (String × List (String × Option ℚ))
  | [], _ => []
  | dep :: deps, admitted =>
    let students := sortFunc (cmpStudents dep) (admitted dep)
    (dep, students.map (fun student => (student.FullName, getExamMeanScore student dep))) ::
      printAdmissions deps (Function.update admitted dep students)

/-! ## Notions used by the statements -/

/-- Ranking rule: higher best score first, equal scores by ascending name. -/
def ranksBefore (dep : String) (x y : Student) : Prop :=
  getBestScore x dep > getBestScore y dep ∨
    (getBestScore x dep = getBestScore y dep ∧ nameLess x.FullName y.FullName)

/-- The remaining applicants whose preference at rank `stage` is `dep`. -/
def partitionOf (stage : Int) (dep : String) (remaining : List Student) : List Student :=
  remaining.filter (fun s => decide (index s.Departments stage = some dep))

/-- Ranking rule with ties: higher best score first, equal scores by ascending
or equal name. -/
def ranksBeforeOrTied (dep : String) (x y : Student) : Prop :=
  getBestScore x dep > getBestScore y dep ∨
    (getBestScore x dep = getBestScore y dep ∧
      (nameLess x.FullName y.FullName ∨ x.FullName = y.FullName))

/-- The applicant with the preferences beyond the last wave removed. -/
def truncatePreferences (s : Student) : Student :=
  { s with Departments := s.Departments.take admissionStages }

/-- The applicant with one more score, of value zero, for `subj`. -/
def withZeroScore (s : Student) (subj : String) : Student :=
  { s with ExamScores := s.ExamScores ++ [⟨subj, 0⟩] }

/-- The state with the preferences beyond the last wave removed from every record. -/
def truncateState (st : Rosters × List Student) : Rosters × List Student :=
  (fun dep => (st.1 dep).map truncatePreferences, st.2.map truncatePreferences)

/-! ## Sample data -/

/-- A record with the four subject scores in file order. -/
def mkStudent (name : String) (physics chemistry math cs entrance : ℚ)
    (prefs : List String) : Student :=
  { FullName := name
    EntranceExamScore := entrance
    ExamScores := [⟨"Physics", physics⟩, ⟨"Chemistry", chemistry⟩, ⟨"Math", math⟩,
      ⟨"ComputerScience", cs⟩]
    Departments := prefs }

def ann : Student := mkStudent "Ann Lee" 80 70 90 60 75 ["Physics", "Chemistry", "Biotech"]
def bob : Student := mkStudent "Bob Ray" 60 65 70 95 90 ["Physics", "Engineering", "Mathematics"]
def cyd : Student := mkStudent "Cyd Orr" 50 88 40 45 30 ["Chemistry", "Physics", "Law"]
def dan : Student := mkStudent "Dan Poe" 90 20 80 10 85 ["Physics", "Biotech", "Chemistry"]

def samplePool : List Student := [ann, bob, cyd, dan]

def fay : Student := mkStudent "Fay Kim" 40 50 60 70 45 ["Biotech", "Physics", "Chemistry"]

/-- A record without a Math score. -/
def gus : Student :=
  { FullName := "Gus Hay"
    EntranceExamScore := 30
    ExamScores := [⟨"Physics", 80⟩, ⟨"Chemistry", 70⟩, ⟨"ComputerScience", 60⟩]
    Departments := ["Physics", "Chemistry", "Biotech"] }

/-- Two different applicants with one full name. -/
def sam1 : Student := mkStudent "Sam Doe" 10 10 10 10 90 ["Physics", "Chemistry", "Biotech"]
def sam2 : Student := mkStudent "Sam Doe" 10 10 10 10 60 ["Physics", "Chemistry", "Biotech"]

/-- An applicant who names no listed department. -/
def hal : Student := mkStudent "Hal Ives" 99 99 99 99 99 ["Law", "Arts", "Music"]

/-! ## Facts about the ordering -/

theorem compareCodes_neg_iff (a b : List Nat) :
    compareCodes a b < 0 ↔ List.Lex (fun m n : Nat => m < n) a b := by
  induction a generalizing b with
  | nil =>
    cases b with
    | nil => simp [compareCodes, List.Lex.not_nil_right]
    | cons y ys => simp [compareCodes, List.Lex.nil]
  | cons x xs ih =>
    cases b with
    | nil => simp [compareCodes, List.Lex.not_nil_right]
    | cons y ys =>
      simp only [compareCodes]
      rcases Nat.lt_trichotomy x y with h | h | h
      · simp only [h, if_true]
        exact ⟨fun _ => List.Lex.rel h, fun _ => by decide⟩
      · subst h
        simp only [Nat.lt_irrefl, if_false]
        rw [ih ys]
        exact List.Lex.cons_iff.symm
      · have hn : ¬ x < y := Nat.lt_asymm h
        simp only [hn, h, if_true, if_false]
        constructor
        · intro h0
          exact absurd h0 (by decide)
        · intro hl
          cases hl with
          | cons h1 => exact absurd h (Nat.lt_irrefl _)
          | rel h1 => exact absurd h1 hn

theorem compareCodes_eq_zero_iff (a b : List Nat) : compareCodes a b = 0 ↔ a = b := by
  induction a generalizing b with
  | nil => cases b <;> simp [compareCodes]
  | cons x xs ih =>
    cases b with
    | nil => simp [compareCodes]
    | cons y ys =>
      simp only [compareCodes, List.cons.injEq]
      rcases Nat.lt_trichotomy x y with h | h | h
      · simp [h, Nat.ne_of_lt h]
      · subst h
        simp [ih ys]
      · have hn : ¬ x < y := Nat.lt_asymm h
        simp [hn, h, Nat.ne_of_gt h]

theorem codes_injective (a b : String)
    (h : a.toList.map Char.toNat = b.toList.map Char.toNat) : a = b := by
  have h2 := congrArg (List.map Char.ofNat) h
  simp only [List.map_map] at h2
  have hid : (Char.ofNat ∘ Char.toNat) = id := by
    funext c
    simp
  rw [hid, List.map_id, List.map_id] at h2
  exact String.toList_inj.mp h2

theorem stringsCompare_neg_iff (a b : String) : stringsCompare a b < 0 ↔ nameLess a b :=
  compareCodes_neg_iff _ _

theorem stringsCompare_eq_zero_iff (a b : String) : stringsCompare a b = 0 ↔ a = b := by
  unfold stringsCompare
  rw [compareCodes_eq_zero_iff]
  exact ⟨codes_injective a b, fun h => by rw [h]⟩

theorem nameLess_trans {a b c : String} (h1 : nameLess a b) (h2 : nameLess b c) :
    nameLess a c :=
  (inferInstance : IsTrans (List Nat) (List.Lex (fun m n : Nat => m < n))).trans _ _ _ h1 h2

theorem nameLess_total {a b : String} (h : a ≠ b) : nameLess a b ∨ nameLess b a := by
  rcases trichotomous_of (List.Lex (fun m n : Nat => m < n))
    (a.toList.map Char.toNat) (b.toList.map Char.toNat) with h1 | h1 | h1
  · exact Or.inl h1
  · exact absurd (codes_injective a b h1) h
  · exact Or.inr h1

theorem cmpStudents_neg_iff (dep : String) (x y : Student) :
    cmpStudents dep x y < 0 ↔ ranksBefore dep x y := by
  unfold cmpStudents ranksBefore
  by_cases he : getBestScore x dep = getBestScore y dep
  · simp [he, stringsCompare_neg_iff]
  · by_cases hg : getBestScore x dep > getBestScore y dep
    · simp [he, hg]
    · simp [he, hg]

theorem ranksBefore_trans {dep : String} {x y z : Student}
    (h1 : ranksBefore dep x y) (h2 : ranksBefore dep y z) : ranksBefore dep x z := by
  unfold ranksBefore at *
  rcases h1 with h1 | ⟨e1, n1⟩ <;> rcases h2 with h2 | ⟨e2, n2⟩
  · exact Or.inl (gt_trans h1 h2)
  · exact Or.inl (e2 ▸ h1)
  · exact Or.inl (e1 ▸ h2)
  · exact Or.inr ⟨e1.trans e2, nameLess_trans n1 n2⟩

theorem ranksBefore_total {dep : String} {x y : Student} (h : x.FullName ≠ y.FullName) :
    ranksBefore dep x y ∨ ranksBefore dep y x := by
  unfold ranksBefore
  rcases lt_trichotomy (getBestScore x dep) (getBestScore y dep) with hl | he | hg
  · exact Or.inr (Or.inl hl)
  · rcases nameLess_total h with hn | hn
    · exact Or.inl (Or.inr ⟨he, hn⟩)
    · exact Or.inr (Or.inr ⟨he.symm, hn⟩)
  · exact Or.inl (Or.inl hg)

/-! ## Facts about the sort -/

theorem insertLeft_perm {α : Type} (cmp : α → α → Int) (x : α) (l : List α) :
    (insertLeft cmp x l).Perm (x :: l) := by
  induction l with
  | nil => exact List.Perm.refl _
  | cons y ys ih =>
    unfold insertLeft
    split
    · exact (List.Perm.cons y ih).trans (List.Perm.swap x y ys)
    · exact List.Perm.refl _

theorem foldl_insertLeft_perm {α : Type} (cmp : α → α → Int) (l acc : List α) :
    (l.foldl (fun sortedRev x => insertLeft cmp x sortedRev) acc).Perm (l ++ acc) := by
  induction l generalizing acc with
  | nil => exact List.Perm.refl _
  | cons x xs ih =>
    simp only [List.foldl_cons]
    refine (ih _).trans ?_
    refine (List.Perm.append_left xs (insertLeft_perm cmp x acc)).trans ?_
    simp only [List.cons_append]
    exact List.perm_middle

theorem sortFunc_perm {α : Type} (cmp : α → α → Int) (l : List α) :
    (sortFunc cmp l).Perm l := by
  unfold sortFunc
  refine (List.reverse_perm _).trans ?_
  simpa using foldl_insertLeft_perm cmp l []

theorem sortFunc_length {α : Type} (cmp : α → α → Int) (l : List α) :
    (sortFunc cmp l).length = l.length :=
  (sortFunc_perm cmp l).length_eq

theorem mem_sortFunc {α : Type} (cmp : α → α → Int) (l : List α) (x : α) :
    x ∈ sortFunc cmp l ↔ x ∈ l :=
  (sortFunc_perm cmp l).mem_iff

theorem insertLeft_pairwise {α : Type} (cmp : α → α → Int)
    (htrans : ∀ a b c, cmp a b < 0 → cmp b c < 0 → cmp a c < 0)
    (x : α) (l : List α) (hl : l.Pairwise (fun a b => cmp b a < 0))
    (hx : ∀ y ∈ l, cmp x y < 0 ∨ cmp y x < 0) :
    (insertLeft cmp x l).Pairwise (fun a b => cmp b a < 0) := by
  induction l with
  | nil => simp [insertLeft]
  | cons y ys ih =>
    rw [List.pairwise_cons] at hl
    unfold insertLeft
    split
    · rename_i hxy
      rw [List.pairwise_cons]
      refine ⟨?_, ih hl.2 (fun z hz => hx z (List.mem_cons_of_mem _ hz))⟩
      intro z hz
      rcases List.mem_cons.mp ((insertLeft_perm cmp x ys).mem_iff.mp hz) with hz1 | hz1
      · rw [hz1]
        exact hxy
      · exact hl.1 z hz1
    · rename_i hxy
      have hyx : cmp y x < 0 := (hx y (List.mem_cons_self _ _)).resolve_left hxy
      rw [List.pairwise_cons]
      refine ⟨?_, List.pairwise_cons.mpr hl⟩
      intro z hz
      rcases List.mem_cons.mp hz with hz1 | hz1
      · rw [hz1]; exact hyx
      · exact htrans z y x (hl.1 z hz1) hyx

theorem foldl_insertLeft_pairwise {α : Type} (cmp : α → α → Int)
    (htrans : ∀ a b c, cmp a b < 0 → cmp b c < 0 → cmp a c < 0)
    (l acc : List α) (hacc : acc.Pairwise (fun a b => cmp b a < 0))
    (hl : l.Pairwise (fun a b => cmp a b < 0 ∨ cmp b a < 0))
    (hcross : ∀ x ∈ l, ∀ y ∈ acc, cmp x y < 0 ∨ cmp y x < 0) :
    (l.foldl (fun sortedRev x => insertLeft cmp x sortedRev) acc).Pairwise
      (fun a b => cmp b a < 0) := by
  induction l generalizing acc with
  | nil => exact hacc
  | cons x xs ih =>
    rw [List.pairwise_cons] at hl
    simp only [List.foldl_cons]
    apply ih _ (insertLeft_pairwise cmp htrans x acc hacc
      (fun y hy => hcross x (List.mem_cons_self _ _) y hy)) hl.2
    intro z hz y hy
    rcases List.mem_cons.mp ((insertLeft_perm cmp x acc).mem_iff.mp hy) with hy1 | hy1
    · rw [hy1]
      exact (hl.1 z hz).symm
    · exact hcross z (List.mem_cons_of_mem _ hz) y hy1

theorem sortFunc_pairwise {α : Type} (cmp : α → α → Int)
    (htrans : ∀ a b c, cmp a b < 0 → cmp b c < 0 → cmp a c < 0)
    (l : List α) (hl : l.Pairwise (fun a b => cmp a b < 0 ∨ cmp b a < 0)) :
    (sortFunc cmp l).Pairwise (fun a b => cmp a b < 0) := by
  unfold sortFunc
  rw [List.pairwise_reverse]
  exact foldl_insertLeft_pairwise cmp htrans l [] List.Pairwise.nil hl
    (fun _ _ y hy => absurd hy (List.not_mem_nil y))

theorem sortFunc_ranked (dep : String) (l : List Student)
    (hnames : (l.map Student.FullName).Nodup) :
    (sortFunc (cmpStudents dep) l).Pairwise (ranksBefore dep) := by
  have hp := sortFunc_pairwise (cmpStudents dep)
    (fun a b c h1 h2 => (cmpStudents_neg_iff dep a c).mpr
      (ranksBefore_trans ((cmpStudents_neg_iff dep a b).mp h1)
        ((cmpStudents_neg_iff dep b c).mp h2))) l
    (by
      have h1 : l.Pairwise (fun a b => a.FullName ≠ b.FullName) :=
        (List.pairwise_map).mp hnames
      refine h1.imp ?_
      intro a b hab
      rcases @ranksBefore_total dep a b hab with h | h
      · exact Or.inl ((cmpStudents_neg_iff dep a b).mpr h)
      · exact Or.inr ((cmpStudents_neg_iff dep b a).mpr h))
  exact hp.imp (fun {a b} h => (cmpStudents_neg_iff dep a b).mp h)

theorem nameLess_asymm {a b : String} (h1 : nameLess a b) (h2 : nameLess b a) : False :=
  (inferInstance : IsAsymm (List Nat) (List.Lex (fun m n : Nat => m < n))).asymm _ _ h1 h2

theorem ranksBefore_asymm {dep : String} {x y : Student}
    (h1 : ranksBefore dep x y) (h2 : ranksBefore dep y x) : False := by
  unfold ranksBefore at *
  rcases h1 with h1 | ⟨e1, n1⟩ <;> rcases h2 with h2 | ⟨e2, n2⟩
  · exact lt_asymm h1 h2
  · rw [e2] at h1; exact lt_irrefl _ h1
  · rw [e1] at h2; exact lt_irrefl _ h2
  · exact nameLess_asymm n1 n2

/-- Any ranked rearrangement of a slice is the one `sortFunc` returns: with
pairwise distinct names the result of sorting does not depend on the algorithm. -/
theorem ranked_perm_unique (dep : String) (l sorted : List Student)
    (hnames : (l.map Student.FullName).Nodup) (hperm : sorted.Perm l)
    (hranked : sorted.Pairwise (ranksBefore dep)) :
    sorted = sortFunc (cmpStudents dep) l := by
  have hanti : IsAntisymm Student (ranksBefore dep) :=
    ⟨fun _ _ h1 h2 => (ranksBefore_asymm h1 h2).elim⟩
  exact List.eq_of_perm_of_sorted (hperm.trans (sortFunc_perm _ l).symm) hranked
    (sortFunc_ranked dep l hnames)

/-! ## Facts about one wave -/

theorem collectApplicants_eq_some (stage : Int) (remaining : List Student)
    (m m' : Rosters) (h : collectApplicants stage remaining m = some m') (dep : String) :
    m' dep = m dep ++ partitionOf stage dep remaining := by
  induction remaining generalizing m with
  | nil =>
    simp only [collectApplicants, Option.some.injEq] at h
    simp [partitionOf, ← h]
  | cons s rest ih =>
    unfold collectApplicants at h
    cases hidx : index s.Departments stage with
    | none => simp [hidx] at h
    | some d =>
      simp only [hidx] at h
      rw [ih _ h]
      by_cases hd : d = dep
      · subst hd
        simp [partitionOf, List.filter_cons, hidx, Function.update_same]
      · have hd2 : dep ≠ d := fun e => hd e.symm
        simp [partitionOf, List.filter_cons, hidx, hd, Function.update_noteq hd2]

theorem collectApplicants_total (stage : Int) (remaining : List Student) (m : Rosters)
    (h : ∀ s ∈ remaining, ∃ dep, index s.Departments stage = some dep) :
    ∃ m', collectApplicants stage remaining m = some m' := by
  induction remaining generalizing m with
  | nil => exact ⟨m, rfl⟩
  | cons s rest ih =>
    obtain ⟨d, hd⟩ := h s (List.mem_cons_self _ _)
    unfold collectApplicants
    simp only [hd]
    exact ih _ (fun t ht => h t (List.mem_cons_of_mem _ ht))

theorem sortFunc_nil {α : Type} (cmp : α → α → Int) : sortFunc cmp ([] : List α) = [] := rfl

theorem admitLoop_cons (quota : Int) (dep : String) (deps : List String)
    (applicants admitted : Rosters) :
    admitLoop quota (dep :: deps) applicants admitted =
      admitLoop quota deps
        (Function.update applicants dep (sortFunc (cmpStudents dep) (applicants dep)))
        (Function.update admitted dep (admitted dep ++
          (sortFunc (cmpStudents dep) (applicants dep)).take
            (min (quota - ((admitted dep).length : Int))
              ((applicants dep).length : Int)).toNat)) := by
  rw [admitLoop]
  split
  · rename_i h0
    have hnil : applicants dep = [] := List.length_eq_zero.mp h0
    have e1 : Function.update applicants dep (sortFunc (cmpStudents dep) (applicants dep))
        = applicants := by
      rw [hnil, sortFunc_nil, ← hnil, Function.update_eq_self]
    rw [e1, hnil, sortFunc_nil, List.take_nil, List.append_nil, Function.update_eq_self]
  · simp only [sortFunc_length]
    split
    · rfl
    · rename_i hle
      have h1 : (min (quota - ((admitted dep).length : Int))
          ((applicants dep).length : Int)).toNat = 0 := by
        apply Int.toNat_eq_zero.mpr
        exact not_lt.mp hle
      simp [h1, Function.update_eq_self]

theorem admitLoop_not_mem (quota : Int) (deps : List String) (applicants admitted : Rosters)
    (dep : String) (h : dep ∉ deps) :
    admitLoop quota deps applicants admitted dep = admitted dep := by
  induction deps generalizing applicants admitted with
  | nil => rfl
  | cons d ds ih =>
    rw [admitLoop_cons, ih _ _ (fun hm => h (List.mem_cons_of_mem _ hm))]
    exact Function.update_noteq (fun e => h (by rw [e]; exact List.mem_cons_self _ _)) _ _

theorem admitLoop_prefix (quota : Int) (deps : List String) (applicants admitted : Rosters)
    (dep : String) :
    admitted dep <+: admitLoop quota deps applicants admitted dep := by
  induction deps generalizing applicants admitted with
  | nil => exact List.prefix_refl _
  | cons d ds ih =>
    rw [admitLoop_cons]
    refine List.IsPrefix.trans ?_ (ih _ _)
    by_cases hd : dep = d
    · subst hd
      rw [Function.update_same]
      exact List.prefix_append _ _
    · rw [Function.update_noteq hd]

theorem admitLoop_length_le (quota : Int) (deps : List String) (applicants admitted : Rosters)
    (h : ∀ dep, ((admitted dep).length : Int) ≤ quota) (dep : String) :
    ((admitLoop quota deps applicants admitted dep).length : Int) ≤ quota := by
  induction deps generalizing applicants admitted with
  | nil => exact h dep
  | cons d ds ih =>
    rw [admitLoop_cons]
    apply ih
    intro e
    by_cases hd : e = d
    · subst hd
      rw [Function.update_same, List.length_append, List.length_take]
      have := h e
      omega
    · rw [Function.update_noteq hd]
      exact h e

theorem admitLoop_of_nodup (quota : Int) (deps : List String) (applicants admitted : Rosters)
    (hnd : deps.Nodup) (dep : String) (hmem : dep ∈ deps) :
    admitLoop quota deps applicants admitted dep =
      admitted dep ++ (sortFunc (cmpStudents dep) (applicants dep)).take
        (min (quota - ((admitted dep).length : Int)) ((applicants dep).length : Int)).toNat := by
  induction deps generalizing applicants admitted with
  | nil => exact absurd hmem (List.not_mem_nil _)
  | cons d ds ih =>
    rw [List.nodup_cons] at hnd
    rw [admitLoop_cons]
    by_cases hd : dep = d
    · subst hd
      rw [admitLoop_not_mem _ _ _ _ _ hnd.1, Function.update_same]
    · have hm : dep ∈ ds := by
        rcases List.mem_cons.mp hmem with h1 | h1
        · exact absurd h1 hd
        · exact h1
      rw [ih _ _ hnd.2 hm, Function.update_noteq hd, Function.update_noteq hd]

theorem admitLoop_full (quota : Int) (deps : List String) (applicants admitted : Rosters)
    (dep : String) (h : ((admitted dep).length : Int) = quota) :
    admitLoop quota deps applicants admitted dep = admitted dep := by
  induction deps generalizing applicants admitted with
  | nil => rfl
  | cons d ds ih =>
    rw [admitLoop_cons]
    by_cases hd : dep = d
    · subst hd
      have h1 : (min (quota - ((admitted dep).length : Int))
          ((applicants dep).length : Int)).toNat = 0 := by
        apply Int.toNat_eq_zero.mpr
        omega
      rw [h1, List.take_zero, List.append_nil, Function.update_eq_self]
      exact ih _ _ h
    · rw [ih _ _ (by rw [Function.update_noteq hd]; exact h), Function.update_noteq hd]

theorem processDistributionStage_eq_some (stage quota : Int) (departments : List String)
    (admitted : Rosters) (remaining : List Student) (st : Rosters × List Student)
    (h : processDistributionStage stage quota departments admitted remaining = some st) :
    ∃ applicants : Rosters,
      (∀ dep, applicants dep = partitionOf stage dep remaining) ∧
      st.1 = admitLoop quota departments applicants admitted ∧
      st.2 = remaining.filter
        (fun student => decide (student.FullName ∉ acceptedNames departments st.1)) := by
  unfold processDistributionStage at h
  cases hc : collectApplicants stage remaining (fun _ => []) with
  | none => simp [hc] at h
  | some ap =>
    simp only [hc, Option.some.injEq] at h
    refine ⟨ap, ?_, ?_, ?_⟩
    · intro dep
      simpa using collectApplicants_eq_some stage remaining _ ap hc dep
    · rw [← h]
    · rw [← h]

theorem processDistributionStage_total (stage quota : Int) (departments : List String)
    (admitted : Rosters) (remaining : List Student)
    (h : ∀ s ∈ remaining, ∃ dep, index s.Departments stage = some dep) :
    ∃ st, processDistributionStage stage quota departments admitted remaining = some st := by
  obtain ⟨ap, hap⟩ := collectApplicants_total stage remaining (fun _ => []) h
  unfold processDistributionStage
  simp only [hap]
  exact ⟨_, rfl⟩

theorem index_of_lt {α : Type} (xs : List α) (i : Nat) (h : i < xs.length) :
    ∃ x, index xs (i : Int) = some x := by
  unfold index
  have h0 : ¬ ((i : Int) < 0) := by omega
  simp only [h0, if_false, Int.toNat_ofNat]
  exact ⟨xs.get ⟨i, h⟩, List.get?_eq_get h⟩

/-! ## Facts about the sequence of waves -/

theorem runStages_invariant (P : Rosters × List Student → Prop) (quota : Int)
    (departments : List String)
    (hstep : ∀ stage st st', P st →
      processDistributionStage stage quota departments st.1 st.2 = some st' → P st')
    (n : Nat) (stage : Int) (st st' : Rosters × List Student) (h0 : P st)
    (h : runStages quota departments n stage st = some st') : P st' := by
  induction n generalizing stage st with
  | zero =>
    simp only [runStages, Option.some.injEq] at h
    exact h ▸ h0
  | succ n ih =>
    unfold runStages at h
    cases hp : processDistributionStage stage quota departments st.1 st.2 with
    | none => simp [hp] at h
    | some st1 =>
      simp only [hp] at h
      exact ih (stage + 1) st1 (hstep stage st st1 h0 hp) h

theorem processDistributionStage_subset (stage quota : Int) (departments : List String)
    (admitted : Rosters) (remaining : List Student) (st : Rosters × List Student)
    (h : processDistributionStage stage quota departments admitted remaining = some st) :
    st.2.Sublist remaining := by
  obtain ⟨_, _, _, h3⟩ := processDistributionStage_eq_some _ _ _ _ _ _ h
  rw [h3]
  exact List.filter_sublist _

theorem runStages_total (quota : Int) (departments : List String) (n : Nat) (stage : Nat)
    (st : Rosters × List Student)
    (h : ∀ s ∈ st.2, stage + n ≤ s.Departments.length) :
    ∃ st', runStages quota departments n (stage : Int) st = some st' := by
  induction n generalizing stage st with
  | zero => exact ⟨st, rfl⟩
  | succ n ih =>
    obtain ⟨st1, hst1⟩ := processDistributionStage_total (stage : Int) quota departments
      st.1 st.2 (fun s hs => index_of_lt _ _ (by have := h s hs; omega))
    unfold runStages
    simp only [hst1]
    have hsub := (processDistributionStage_subset _ _ _ _ _ _ hst1).subset
    have := ih (stage + 1) st1 (fun s hs => by have := h s (hsub hs); omega)
    simpa using this

theorem distribute_total (quota : Int) (departments : List String) (students : List Student)
    (h : ∀ s ∈ students, admissionStages ≤ s.Departments.length) (k : Nat)
    (hk : k ≤ admissionStages) :
    ∃ st, distribute k quota departments students = some st := by
  have := runStages_total quota departments k 0 (fun _ => [], students)
    (fun s hs => by have := h s hs; omega)
  simpa [distribute] using this

theorem distribute_succ (n : Nat) (quota : Int) (departments : List String)
    (students : List Student) (st : Rosters × List Student)
    (h : distribute (n + 1) quota departments students = some st) :
    ∃ st0, processDistributionStage 0 quota departments (fun _ => []) students = some st0 ∧
      runStages quota departments n 1 st0 = some st := by
  unfold distribute runStages at h
  cases hp : processDistributionStage 0 quota departments (fun _ => []) students with
  | none => simp [hp] at h
  | some st0 =>
    simp only [hp] at h
    exact ⟨st0, rfl, by simpa using h⟩

theorem admitLoop_fills (quota : Int) (hq : 0 ≤ quota) (deps : List String)
    (applicants admitted : Rosters) (dep : String) (hmem : dep ∈ deps)
    (hempty : admitted dep = []) (hmany : quota ≤ ((applicants dep).length : Int)) :
    ((admitLoop quota deps applicants admitted dep).length : Int) = quota := by
  induction deps generalizing applicants admitted with
  | nil => exact absurd hmem (List.not_mem_nil _)
  | cons d ds ih =>
    rw [admitLoop_cons]
    by_cases hd : dep = d
    · subst hd
      rw [admitLoop_full]
      · rw [Function.update_same, hempty, List.nil_append, List.length_take, sortFunc_length]
        simp only [List.length_nil, Int.ofNat_zero, sub_zero]
        omega
      · rw [Function.update_same, hempty, List.nil_append, List.length_take, sortFunc_length]
        simp only [List.length_nil, Int.ofNat_zero, sub_zero]
        omega
    · have hm : dep ∈ ds := by
        rcases List.mem_cons.mp hmem with h1 | h1
        · exact absurd h1 hd
        · exact h1
      apply ih _ _ hm
      · rw [Function.update_noteq hd]; exact hempty
      · rw [Function.update_noteq hd]; exact hmany

/-! ## Facts about the scores -/

theorem foldl_add_scores (scores : List ExamScore) (subj : String) (acc : ℚ) :
    scores.foldl (fun sum score => if score.Subject = subj then sum + score.Score else sum) acc
      = acc + ((scores.filter (fun e => decide (e.Subject = subj))).map ExamScore.Score).sum := by
  induction scores generalizing acc with
  | nil => simp
  | cons e es ih =>
    simp only [List.foldl_cons, List.filter_cons]
    rw [ih]
    by_cases he : e.Subject = subj
    · simp [he, add_assoc]
    · simp [he]

/-! ## Conservation of the applicants through a wave -/

theorem acceptedNames_mem (departments : List String) (admitted : Rosters) (name : String) :
    name ∈ acceptedNames departments admitted ↔
      ∃ dep ∈ departments, ∃ t ∈ admitted dep, t.FullName = name := by
  simp [acceptedNames, List.mem_flatMap, List.mem_map]

theorem stage_perm (stage quota : Int) (deps : List String) (hnd : deps.Nodup)
    (adm : Rosters) (rem : List Student) (st : Rosters × List Student)
    (h : processDistributionStage stage quota deps adm rem = some st)
    (hnames : ((deps.flatMap adm ++ rem).map Student.FullName).Nodup) :
    (deps.flatMap st.1 ++ st.2).Perm (deps.flatMap adm ++ rem) := by
  obtain ⟨ap, hap, h1, h2⟩ := processDistributionStage_eq_some _ _ _ _ _ _ h
  have hall : (deps.flatMap adm ++ rem).Nodup := List.Nodup.of_map _ hnames
  have hinj := List.inj_on_of_nodup_map hnames
  have hremnd : rem.Nodup := (List.nodup_append.mp hall).2.1
  have hdisj := (List.nodup_append.mp hall).2.2
  -- the applicants admitted in this wave, per department
  let new : String → List Student := fun d =>
    (sortFunc (cmpStudents d) (ap d)).take
      (min (quota - ((adm d).length : Int)) ((ap d).length : Int)).toNat
  have hadm : ∀ d ∈ deps, st.1 d = adm d ++ new d := by
    intro d hd
    rw [h1]
    exact admitLoop_of_nodup quota deps ap adm hnd d hd
  have hnew : ∀ d, ∀ s ∈ new d, s ∈ rem ∧ index s.Departments stage = some d := by
    intro d s hs
    have hs1 : s ∈ ap d := (mem_sortFunc _ _ _).mp (List.mem_of_mem_take hs)
    rw [hap d] at hs1
    simpa [partitionOf] using hs1
  have hnewnd : ∀ d, (new d).Nodup := by
    intro d
    refine (List.take_sublist _ _).nodup ?_
    rw [(sortFunc_perm _ _).nodup_iff, hap d]
    exact hremnd.filter _
  have hNnd : (deps.flatMap new).Nodup := by
    rw [List.nodup_flatMap]
    refine ⟨fun d _ => hnewnd d, ?_⟩
    refine List.Pairwise.imp ?_ hnd
    intro a b hab s hsa hsb
    have e1 := (hnew a s hsa).2
    have e2 := (hnew b s hsb).2
    rw [e1] at e2
    exact hab (Option.some.inj e2)
  have hkey : ∀ s ∈ rem,
      (s.FullName ∈ acceptedNames deps st.1 ↔ s ∈ deps.flatMap new) := by
    intro s hs
    rw [acceptedNames_mem, List.mem_flatMap]
    constructor
    · rintro ⟨d, hd, t, ht, hts⟩
      rw [hadm d hd, List.mem_append] at ht
      rcases ht with ht | ht
      · exfalso
        have htl : t ∈ deps.flatMap adm := List.mem_flatMap.mpr ⟨d, hd, ht⟩
        have hts2 : t = s := hinj (List.mem_append_left _ htl) (List.mem_append_right _ hs) hts
        exact hdisj htl (hts2 ▸ hs)
      · have hts2 : t = s := hinj (List.mem_append_right _ (hnew d t ht).1)
          (List.mem_append_right _ hs) hts
        exact ⟨d, hd, hts2 ▸ ht⟩
    · rintro ⟨d, hd, hsd⟩
      refine ⟨d, hd, s, ?_, rfl⟩
      rw [hadm d hd]
      exact List.mem_append_right _ hsd
  have hfilter : st.2 = rem.filter (fun s => !decide (s ∈ deps.flatMap new)) := by
    rw [h2]
    apply List.filter_congr
    intro s hs
    have := hkey s hs
    by_cases hm : s ∈ deps.flatMap new
    · simp [hm, this.mpr hm]
    · have hn : s.FullName ∉ acceptedNames deps st.1 := fun hc => hm (this.mp hc)
      simp [hm, hn]
  have hN : (deps.flatMap new).Perm (rem.filter (fun s => decide (s ∈ deps.flatMap new))) := by
    rw [List.perm_ext_iff_of_nodup hNnd (hremnd.filter _)]
    intro s
    simp only [List.mem_filter, decide_eq_true_eq]
    constructor
    · intro hs
      obtain ⟨d, _, hsd⟩ := List.mem_flatMap.mp hs
      exact ⟨(hnew d s hsd).1, hs⟩
    · exact fun hs => hs.2
  have hflat : deps.flatMap st.1 = deps.flatMap (fun d => adm d ++ new d) :=
    List.flatMap_congr hadm
  rw [hflat, hfilter]
  refine ((List.flatMap_append_perm deps adm new).symm.append_right _).trans ?_
  rw [List.append_assoc]
  refine List.Perm.append_left _ ?_
  exact (hN.append_right _).trans (List.filter_append_perm _ rem)

theorem stage_unlisted_empty (stage quota : Int) (deps : List String)
    (adm : Rosters) (rem : List Student) (st : Rosters × List Student)
    (h : processDistributionStage stage quota deps adm rem = some st)
    (hempty : ∀ d, d ∉ deps → adm d = []) : ∀ d, d ∉ deps → st.1 d = [] := by
  obtain ⟨ap, _, h1, _⟩ := processDistributionStage_eq_some _ _ _ _ _ _ h
  intro d hd
  rw [h1, admitLoop_not_mem _ _ _ _ _ hd]
  exact hempty d hd

theorem distribute_conserves (quota : Int) (deps : List String) (hnd : deps.Nodup)
    (students : List Student) (hnames : (students.map Student.FullName).Nodup)
    (k : Nat) (st : Rosters × List Student)
    (h : distribute k quota deps students = some st) :
    (∀ d, d ∉ deps → st.1 d = []) ∧ (deps.flatMap st.1 ++ st.2).Perm students := by
  refine runStages_invariant
    (fun st => (∀ d, d ∉ deps → st.1 d = []) ∧ (deps.flatMap st.1 ++ st.2).Perm students)
    quota deps ?_ k 0 (fun _ => [], students) st ?_ h
  · intro stage s s' hs hp
    refine ⟨stage_unlisted_empty _ _ _ _ _ _ hp hs.1, ?_⟩
    refine (stage_perm stage quota deps hnd s.1 s.2 s' hp ?_).trans hs.2
    rw [(hs.2.map _).nodup_iff]
    exact hnames
  · refine ⟨fun _ _ => rfl, ?_⟩
    have : deps.flatMap (fun _ => ([] : List Student)) = [] := by
      induction deps with
      | nil => rfl
      | cons d ds ih => simp
    simp [this]

/-! ## Verified properties -/

/-- C1 (quota invariant).  For a non-negative quota and any pool, starting from
empty rosters, after any number of waves every roster of the admitted map has at
most `quota` entries; and when every applicant has a preference for each of the
three waves, each of the three waves does return a state. -/
theorem quota_invariant (quota : Int) (hq : 0 ≤ quota) (departments : List String)
    (students : List Student) :
    (∀ k st, distribute k quota departments students = some st →
      ∀ dep, ((st.1 dep).length : Int) ≤ quota) ∧
    ((∀ s ∈ students, admissionStages ≤ s.Departments.length) →
      ∀ k, k ≤ admissionStages → ∃ st, distribute k quota departments students = some st) := by
  refine ⟨?_, fun hp k hk => distribute_total quota departments students hp k hk⟩
  intro k st h
  refine runStages_invariant (fun st => ∀ dep, ((st.1 dep).length : Int) ≤ quota)
    quota departments ?_ k 0 (fun _ => [], students) st ?_ h
  · intro stage s s' hs hp dep
    obtain ⟨ap, _, h1, _⟩ := processDistributionStage_eq_some _ _ _ _ _ _ hp
    rw [h1]
    exact admitLoop_length_le quota departments ap s.1 hs dep
  · intro dep
    simpa using hq

/-- C2 (exclusivity).  For a pool with pairwise distinct full names and a
duplicate-free department list, after any number of waves from empty rosters no
roster holds an applicant twice and no applicant is on the rosters of two
departments; with three preferences per applicant the three waves return a state. -/
theorem exclusivity (quota : Int) (departments : List String) (hnd : departments.Nodup)
    (students : List Student) (hnames : (students.map Student.FullName).Nodup) :
    (∀ k st, distribute k quota departments students = some st →
      (∀ dep, (st.1 dep).Nodup) ∧
      (∀ d1 d2 s, s ∈ st.1 d1 → s ∈ st.1 d2 → d1 = d2)) ∧
    ((∀ s ∈ students, admissionStages ≤ s.Departments.length) →
      ∃ st, distribute admissionStages quota departments students = some st) := by
  refine ⟨?_, fun hp => distribute_total quota departments students hp _ (Nat.le_refl _)⟩
  intro k st h
  obtain ⟨hempty, hperm⟩ := distribute_conserves quota departments hnd students hnames k st h
  have hall : (departments.flatMap st.1 ++ st.2).Nodup :=
    hperm.nodup_iff.mpr (List.Nodup.of_map _ hnames)
  have hflat := List.nodup_flatMap.mp (List.nodup_append.mp hall).1
  have hmemdep : ∀ d s, s ∈ st.1 d → d ∈ departments := by
    intro d s hs
    by_contra hd
    rw [hempty d hd] at hs
    exact List.not_mem_nil _ hs
  constructor
  · intro dep
    by_cases hd : dep ∈ departments
    · exact hflat.1 dep hd
    · rw [hempty dep hd]
      exact List.nodup_nil
  · intro d1 d2 s h1 h2
    by_contra hne
    have hsym : Symmetric (fun a b : String => (st.1 a).Disjoint (st.1 b)) :=
      fun a b hab => hab.symm
    exact (hflat.2.forall hsym (hmemdep d1 s h1) (hmemdep d2 s h2) hne) h1 h2

/-- C4 (ranker).  For a partition with pairwise distinct full names and any
department, the sorted sequence is a permutation of the partition in which each
entry ranks before the next one (indeed before every later one): higher best
score, or equal best score and smaller full name in lexicographic order. -/
theorem ranker_sorted_perm (dep : String) (partition : List Student)
    (hnames : (partition.map Student.FullName).Nodup) :
    (sortFunc (cmpStudents dep) partition).Perm partition ∧
    (sortFunc (cmpStudents dep) partition).Chain'
      (fun x y => getBestScore x dep > getBestScore y dep ∨
        (getBestScore x dep = getBestScore y dep ∧ nameLess x.FullName y.FullName)) ∧
    (sortFunc (cmpStudents dep) partition).Pairwise (ranksBefore dep) := by
  have hs := sortFunc_ranked dep partition hnames
  exact ⟨sortFunc_perm _ _, List.Pairwise.chain' hs, hs⟩

/-- C5 (subject mean).  For an applicant with exactly one score for each of
Physics, Chemistry, Math and ComputerScience, `getExamMeanScore` is the sum of the
scores of the department's subjects divided by their number. -/
theorem getExamMeanScore_known (s : Student) (p c m cs : ℚ)
    (hp : s.ExamScores.filter (fun e => decide (e.Subject = "Physics")) = [⟨"Physics", p⟩])
    (hc : s.ExamScores.filter (fun e => decide (e.Subject = "Chemistry")) = [⟨"Chemistry", c⟩])
    (hm : s.ExamScores.filter (fun e => decide (e.Subject = "Math")) = [⟨"Math", m⟩])
    (hcs : s.ExamScores.filter (fun e => decide (e.Subject = "ComputerScience"))
      = [⟨"ComputerScience", cs⟩]) :
    getExamMeanScore s "Physics" = some ((p + m) / 2) ∧
    getExamMeanScore s "Chemistry" = some c ∧
    getExamMeanScore s "Mathematics" = some m ∧
    getExamMeanScore s "Engineering" = some ((cs + m) / 2) ∧
    getExamMeanScore s "Biotech" = some ((c + p) / 2) := by
  refine ⟨?_, ?_, ?_, ?_, ?_⟩ <;>
    simp [getExamMeanScore, depToSubjects, sumScores, foldl_add_scores, hp, hc, hm, hcs]

/-- C6 (best score).  Whenever the subject mean is defined, `getBestScore` is the
maximum of the subject mean and the entrance score, hence at least each of them
and equal to one of them; the mean is defined for each of the five departments,
and without a mean (a department outside the table) the entrance score is returned. -/
theorem getBestScore_eq_max (s : Student) (dep : String) :
    (∀ mean, getExamMeanScore s dep = some mean →
      getBestScore s dep = max mean s.EntranceExamScore ∧
      mean ≤ getBestScore s dep ∧ s.EntranceExamScore ≤ getBestScore s dep ∧
      (getBestScore s dep = mean ∨ getBestScore s dep = s.EntranceExamScore)) ∧
    (dep ∈ mainDepartments → ∃ mean, getExamMeanScore s dep = some mean) ∧
    (getExamMeanScore s dep = none → getBestScore s dep = s.EntranceExamScore) := by
  refine ⟨?_, ?_, ?_⟩
  · intro mean hmean
    unfold getBestScore
    simp only [hmean]
    by_cases hgt : mean > s.EntranceExamScore
    · rw [if_pos hgt]
      exact ⟨(max_eq_left (le_of_lt hgt)).symm, le_refl _, le_of_lt hgt, Or.inl rfl⟩
    · rw [if_neg hgt]
      have hle : mean ≤ s.EntranceExamScore := not_lt.mp hgt
      exact ⟨(max_eq_right hle).symm, hle, le_refl _, Or.inr rfl⟩
  · intro hdep
    simp only [mainDepartments, List.mem_cons, List.mem_singleton, List.not_mem_nil,
      or_false] at hdep
    rcases hdep with h | h | h | h | h <;> subst h <;>
      simp [getExamMeanScore, depToSubjects]
  · intro hnone
    unfold getBestScore
    simp only [hnone]

/-- C7 (pool and rosters are disjoint).  After any call, nobody left in the
remaining pool has the full name of somebody on the roster of a listed
department, so nobody is both in the pool and on such a roster; when the rosters
of the unlisted departments were empty before the call this holds for every
roster of the map. -/
theorem pool_roster_disjoint (stage quota : Int) (departments : List String)
    (admitted : Rosters) (remaining : List Student) (st : Rosters × List Student)
    (h : processDistributionStage stage quota departments admitted remaining = some st) :
    (∀ s ∈ st.2, ∀ dep ∈ departments, ∀ t ∈ st.1 dep, t.FullName ≠ s.FullName) ∧
    (∀ s ∈ st.2, ∀ dep ∈ departments, s ∉ st.1 dep) ∧
    ((∀ dep, dep ∉ departments → admitted dep = []) → ∀ s ∈ st.2, ∀ dep, s ∉ st.1 dep) := by
  obtain ⟨ap, _, h1, h2⟩ := processDistributionStage_eq_some _ _ _ _ _ _ h
  have key : ∀ s ∈ st.2, ∀ dep ∈ departments, ∀ t ∈ st.1 dep, t.FullName ≠ s.FullName := by
    intro s hs dep hdep t ht hts
    rw [h2, List.mem_filter] at hs
    have hnot : s.FullName ∉ acceptedNames departments st.1 := by simpa using hs.2
    exact hnot ((acceptedNames_mem _ _ _).mpr ⟨dep, hdep, t, ht, hts⟩)
  refine ⟨key, fun s hs dep hdep hmem => key s hs dep hdep s hmem rfl, ?_⟩
  intro hempty s hs dep hmem
  by_cases hdep : dep ∈ departments
  · exact key s hs dep hdep s hmem rfl
  · rw [stage_unlisted_empty _ _ _ _ _ _ h hempty dep hdep] at hmem
    exact List.not_mem_nil _ hmem

/-- C8 (nobody is lost).  For a pool with pairwise distinct full names, at least
three preferences per applicant and a duplicate-free department list, the three
waves return a state in which the rosters of the listed departments together
with the remaining pool are a rearrangement of the initial pool: an applicant is
in the initial pool exactly when it is on some roster or in the remaining pool. -/
theorem nobody_lost (quota : Int) (departments : List String) (hnd : departments.Nodup)
    (students : List Student) (hnames : (students.map Student.FullName).Nodup)
    (hprefs : ∀ s ∈ students, admissionStages ≤ s.Departments.length) :
    ∃ st, distribute admissionStages quota departments students = some st ∧
      (∀ s, s ∈ students ↔ ((∃ dep, s ∈ st.1 dep) ∨ s ∈ st.2)) ∧
      (departments.flatMap st.1 ++ st.2).Perm students := by
  obtain ⟨st, hst⟩ := distribute_total quota departments students hprefs _ (Nat.le_refl _)
  obtain ⟨hempty, hperm⟩ := distribute_conserves quota departments hnd students hnames _ st hst
  refine ⟨st, hst, ?_, hperm⟩
  intro s
  rw [← hperm.mem_iff, List.mem_append, List.mem_flatMap]
  constructor
  · rintro (⟨d, _, hs⟩ | hs)
    · exact Or.inl ⟨d, hs⟩
    · exact Or.inr hs
  · rintro (⟨d, hs⟩ | hs)
    · refine Or.inl ⟨d, ?_, hs⟩
      by_contra hd
      rw [hempty d hd] at hs
      exact List.not_mem_nil _ hs
    · exact Or.inr hs

/-- C9 (monotonicity).  For any call, each roster before the call is a prefix of
the roster after it, and the remaining pool after the call is a sublist of the
pool before it; so no roster shrinks and the pool does not grow. -/
theorem stage_monotone (stage quota : Int) (departments : List String)
    (admitted : Rosters) (remaining : List Student) (st : Rosters × List Student)
    (h : processDistributionStage stage quota departments admitted remaining = some st) :
    (∀ dep, admitted dep <+: st.1 dep) ∧ st.2.Sublist remaining ∧
    (∀ dep, (admitted dep).length ≤ (st.1 dep).length) ∧
    st.2.length ≤ remaining.length := by
  obtain ⟨ap, _, h1, _⟩ := processDistributionStage_eq_some _ _ _ _ _ _ h
  have hpre : ∀ dep, admitted dep <+: st.1 dep := by
    intro dep
    rw [h1]
    exact admitLoop_prefix quota departments ap admitted dep
  have hsub := processDistributionStage_subset _ _ _ _ _ _ h
  exact ⟨hpre, hsub, fun dep => (hpre dep).length_le, hsub.length_le⟩

/-- C10 (capacity exhaustion).  For a quota `q ≥ 0` and any pool, from empty
rosters, when at least `q` applicants name a listed department at wave 0, the
roster of that department has exactly `q` entries after wave 0 and is the same
list after any later wave; with three preferences per applicant the waves return
a state. -/
theorem capacity_exhaustion (quota : Int) (hq : 0 ≤ quota) (departments : List String)
    (students : List Student) (dep : String) (hdep : dep ∈ departments)
    (hmany : quota ≤ ((partitionOf 0 dep students).length : Int)) :
    (∀ st0, distribute 1 quota departments students = some st0 →
      ((st0.1 dep).length : Int) = quota ∧
      ∀ k st, distribute (k + 1) quota departments students = some st →
        st.1 dep = st0.1 dep) ∧
    ((∀ s ∈ students, admissionStages ≤ s.Departments.length) →
      ∀ k, k ≤ admissionStages → ∃ st, distribute k quota departments students = some st) := by
  refine ⟨?_, fun hp k hk => distribute_total quota departments students hp k hk⟩
  intro st0 h0
  obtain ⟨st0', hp0, hr0⟩ := distribute_succ 0 quota departments students st0 h0
  simp only [runStages, Option.some.injEq] at hr0
  subst hr0
  obtain ⟨ap, hap, h1, _⟩ := processDistributionStage_eq_some _ _ _ _ _ _ hp0
  have hlen : ((st0'.1 dep).length : Int) = quota := by
    rw [h1]
    exact admitLoop_fills quota hq departments ap (fun _ => []) dep hdep rfl
      (by rw [hap dep]; exact hmany)
  refine ⟨hlen, ?_⟩
  intro k st hk
  obtain ⟨st1, hp1, hr1⟩ := distribute_succ k quota departments students st hk
  rw [hp0, Option.some.injEq] at hp1
  subst hp1
  refine runStages_invariant (fun s => s.1 dep = st0'.1 dep) quota departments ?_
    k 1 st0' st rfl hr1
  intro stage s s' hs hp
  obtain ⟨ap', _, h1', _⟩ := processDistributionStage_eq_some _ _ _ _ _ _ hp
  show s'.1 dep = st0'.1 dep
  rw [h1', admitLoop_full quota departments ap' s.1 dep (by rw [hs]; exact hlen)]
  exact hs

/-! ## Concrete instances -/

/-- Wave 0 on the sample pool with quota 1: Bob Ray (best score 90) takes the
Physics seat ahead of Ann Lee and Dan Poe (85 each), Cyd Orr the Chemistry seat. -/
theorem sample_wave0 :
    (processDistributionStage 0 1 mainDepartments (fun _ => []) samplePool).map
      (fun st => (mainDepartments.map (fun d => (st.1 d).map Student.FullName),
        st.2.map Student.FullName))
      = some ([[], ["Cyd Orr"], [], [], ["Bob Ray"]], ["Ann Lee", "Dan Poe"]) := by
  with_unfolding_all decide

/-- The three waves on the sample pool with quota 2. -/
theorem sample_run :
    (distribute 3 2 mainDepartments samplePool).map
      (fun st => (mainDepartments.map (fun d => (st.1 d).map Student.FullName),
        st.2.map Student.FullName))
      = some ([["Dan Poe"], ["Cyd Orr"], [], [], ["Bob Ray", "Ann Lee"]], []) := by
  with_unfolding_all decide

/-- A preference list shorter than the wave index stops the run (index out of range). -/
theorem sample_short_preferences :
    (distribute 2 1 mainDepartments
      [mkStudent "Eve Fox" 1 2 3 4 5 ["Law"]]).isSome = false := by
  with_unfolding_all decide

theorem processDistributionStage_total_of_length (stage : Nat) (quota : Int)
    (departments : List String) (admitted : Rosters) (remaining : List Student)
    (h : ∀ s ∈ remaining, stage < s.Departments.length) :
    ∃ st, processDistributionStage (stage : Int) quota departments admitted remaining
      = some st :=
  processDistributionStage_total _ _ _ _ _ (fun s hs => index_of_lt _ _ (h s hs))

theorem quota_invariant_witness :
    (0 : Int) ≤ 1 ∧ ∃ st, distribute 3 1 mainDepartments samplePool = some st ∧
      ∀ dep, ((st.1 dep).length : Int) ≤ 1 :=
  ⟨by decide,
    ((quota_invariant 1 (by decide) mainDepartments samplePool).2 (by decide) 3
      (by decide)).elim
      fun st hst => ⟨st, hst, (quota_invariant 1 (by decide) mainDepartments samplePool).1 3 st hst⟩⟩

theorem exclusivity_witness :
    mainDepartments.Nodup ∧ (samplePool.map Student.FullName).Nodup ∧
      ∃ st, distribute 3 1 mainDepartments samplePool = some st ∧
        ∀ d1 d2 s, s ∈ st.1 d1 → s ∈ st.1 d2 → d1 = d2 :=
  ⟨by decide, by decide,
    ((exclusivity 1 mainDepartments (by decide) samplePool (by decide)).2 (by decide)).elim
      fun st hst =>
        ⟨st, hst, ((exclusivity 1 mainDepartments (by decide) samplePool (by decide)).1 3 st
          hst).2⟩⟩

theorem ranker_sorted_perm_witness :
    (samplePool.map Student.FullName).Nodup ∧
      (sortFunc (cmpStudents "Physics") samplePool).Perm samplePool ∧
      (sortFunc (cmpStudents "Physics") samplePool).Pairwise (ranksBefore "Physics") :=
  ⟨by decide, (ranker_sorted_perm "Physics" samplePool (by decide)).1,
    (ranker_sorted_perm "Physics" samplePool (by decide)).2.2⟩

theorem getExamMeanScore_known_witness :
    getExamMeanScore ann "Physics" = some ((80 + 90) / 2) ∧
      getExamMeanScore ann "Biotech" = some ((70 + 80) / 2) :=
  ⟨(getExamMeanScore_known ann 80 70 90 60 rfl rfl rfl rfl).1,
    (getExamMeanScore_known ann 80 70 90 60 rfl rfl rfl rfl).2.2.2.2⟩

theorem pool_roster_disjoint_witness :
    ∃ st, processDistributionStage 0 1 mainDepartments (fun _ => []) samplePool = some st ∧
      ∀ s ∈ st.2, ∀ dep, s ∉ st.1 dep :=
  (processDistributionStage_total_of_length 0 1 mainDepartments (fun _ => []) samplePool
    (by decide)).elim
    fun st hst => ⟨st, hst,
      (pool_roster_disjoint 0 1 mainDepartments (fun _ => []) samplePool st hst).2.2
        (fun _ _ => rfl)⟩

theorem nobody_lost_witness :
    mainDepartments.Nodup ∧ (samplePool.map Student.FullName).Nodup ∧
      (∀ s ∈ samplePool, admissionStages ≤ s.Departments.length) ∧
      ∃ st, distribute admissionStages 1 mainDepartments samplePool = some st ∧
        (mainDepartments.flatMap st.1 ++ st.2).Perm samplePool :=
  ⟨by decide, by decide, by decide,
    (nobody_lost 1 mainDepartments (by decide) samplePool (by decide) (by decide)).elim
      fun st hst => ⟨st, hst.1, hst.2.2⟩⟩

theorem stage_monotone_witness :
    ∃ st, processDistributionStage 0 1 mainDepartments (fun _ => []) samplePool = some st ∧
      (∀ dep, ([] : List Student) <+: st.1 dep) ∧ st.2.Sublist samplePool :=
  (processDistributionStage_total_of_length 0 1 mainDepartments (fun _ => []) samplePool
    (by decide)).elim
    fun st hst => ⟨st, hst,
      (stage_monotone 0 1 mainDepartments (fun _ => []) samplePool st hst).1,
      (stage_monotone 0 1 mainDepartments (fun _ => []) samplePool st hst).2.1⟩

theorem capacity_exhaustion_witness :
    (0 : Int) ≤ 1 ∧ "Physics" ∈ mainDepartments ∧
      (1 : Int) ≤ ((partitionOf 0 "Physics" samplePool).length : Int) ∧
      ∃ st0 st, distribute 1 1 mainDepartments samplePool = some st0 ∧
        distribute 3 1 mainDepartments samplePool = some st ∧
        ((st0.1 "Physics").length : Int) = 1 ∧ st.1 "Physics" = st0.1 "Physics" :=
  ⟨by decide, by decide, by decide,
    ((capacity_exhaustion 1 (by decide) mainDepartments samplePool "Physics" (by decide)
      (by decide)).2 (by decide) 1 (by decide)).elim fun st0 h0 =>
    ((capacity_exhaustion 1 (by decide) mainDepartments samplePool "Physics" (by decide)
      (by decide)).2 (by decide) 3 (by decide)).elim fun st h3 =>
      ⟨st0, st, h0, h3,
        ((capacity_exhaustion 1 (by decide) mainDepartments samplePool "Physics" (by decide)
          (by decide)).1 st0 h0).1,
        ((capacity_exhaustion 1 (by decide) mainDepartments samplePool "Physics" (by decide)
          (by decide)).1 st0 h0).2 2 st h3⟩⟩

/-! ## More facts about one wave -/

theorem admitLoop_no_capacity (quota : Int) (deps : List String)
    (applicants admitted : Rosters) (h : ∀ dep, quota ≤ ((admitted dep).length : Int)) :
    admitLoop quota deps applicants admitted = admitted := by
  induction deps generalizing applicants with
  | nil => rfl
  | cons d ds ih =>
    rw [admitLoop_cons]
    have h1 : (min (quota - ((admitted d).length : Int))
        ((applicants d).length : Int)).toNat = 0 := by
      apply Int.toNat_eq_zero.mpr
      have := h d
      omega
    rw [h1, List.take_zero, List.append_nil, Function.update_eq_self]
    exact ih _

theorem mem_admitLoop (quota : Int) (deps : List String) (applicants admitted : Rosters)
    (dep : String) (s : Student) (h : s ∈ admitLoop quota deps applicants admitted dep) :
    s ∈ admitted dep ∨ (dep ∈ deps ∧ s ∈ applicants dep) := by
  induction deps generalizing applicants admitted with
  | nil => exact Or.inl h
  | cons d ds ih =>
    rw [admitLoop_cons] at h
    rcases ih _ _ h with h1 | ⟨h1, h2⟩
    · by_cases hd : dep = d
      · subst hd
        rw [Function.update_same, List.mem_append] at h1
        rcases h1 with h1 | h1
        · exact Or.inl h1
        · exact Or.inr ⟨List.mem_cons_self _ _,
            (mem_sortFunc _ _ _).mp (List.mem_of_mem_take h1)⟩
      · rw [Function.update_noteq hd] at h1
        exact Or.inl h1
    · refine Or.inr ⟨List.mem_cons_of_mem _ h1, ?_⟩
      by_cases hd : dep = d
      · subst hd
        rw [Function.update_same] at h2
        exact (mem_sortFunc _ _ _).mp h2
      · rw [Function.update_noteq hd] at h2
        exact h2

theorem acceptedNames_nil (departments : List String) :
    acceptedNames departments (fun _ => []) = [] := by
  induction departments with
  | nil => rfl
  | cons d ds ih => simp [acceptedNames]

theorem stage_no_capacity (stage quota : Int) (hq : quota ≤ 0) (departments : List String)
    (remaining : List Student) (st : Rosters × List Student)
    (h : processDistributionStage stage quota departments (fun _ => []) remaining = some st) :
    st = (fun _ => [], remaining) := by
  obtain ⟨ap, _, h1, h2⟩ := processDistributionStage_eq_some _ _ _ _ _ _ h
  have e1 : st.1 = fun _ => [] := by
    rw [h1]
    exact admitLoop_no_capacity quota departments ap _ (fun _ => by simpa using hq)
  have e2 : st.2 = remaining := by
    rw [h2, e1, acceptedNames_nil]
    simp
  exact Prod.ext e1 e2

theorem foldl_add_zero_score (scores : List ExamScore) (subj subj' : String) (acc : ℚ) :
    (scores ++ [(⟨subj, 0⟩ : ExamScore)]).foldl
        (fun (sum : ℚ) (score : ExamScore) =>
          if score.Subject = subj' then sum + score.Score else sum) acc
      = scores.foldl
        (fun (sum : ℚ) (score : ExamScore) =>
          if score.Subject = subj' then sum + score.Score else sum) acc := by
  rw [List.foldl_append]
  simp

/-- The nested loops compute, subject by subject, the total of the scores held
for that subject. -/
theorem sumScores_eq_sum (scores : List ExamScore) (subjects : List String) :
    sumScores scores subjects = (subjects.map (fun subj =>
      ((scores.filter (fun e => decide (e.Subject = subj))).map ExamScore.Score).sum)).sum := by
  unfold sumScores
  have key : ∀ acc : ℚ, subjects.foldl
      (fun sum subj => scores.foldl
        (fun sum score => if score.Subject = subj then sum + score.Score else sum) sum) acc
      = acc + (subjects.map (fun subj =>
        ((scores.filter (fun e => decide (e.Subject = subj))).map ExamScore.Score).sum)).sum := by
    induction subjects with
    | nil => intro acc; simp
    | cons s ss ih =>
      intro acc
      simp only [List.foldl_cons, List.map_cons, List.sum_cons]
      rw [ih, foldl_add_scores, add_assoc]
  simpa using key 0

theorem sum_filter_ne (scores : List ExamScore) (subj : String) (subjects : List String)
    (hmissing : scores.filter (fun e => decide (e.Subject = subj)) = []) :
    (subjects.map (fun sj =>
      ((scores.filter (fun e => decide (e.Subject = sj))).map ExamScore.Score).sum)).sum
    = ((subjects.filter (fun sj => decide (sj ≠ subj))).map (fun sj =>
      ((scores.filter (fun e => decide (e.Subject = sj))).map ExamScore.Score).sum)).sum := by
  induction subjects with
  | nil => rfl
  | cons s ss ih =>
    by_cases hs : s = subj
    · subst hs
      simp [List.filter_cons, hmissing, ih]
    · simp [List.filter_cons, hs, ih]

theorem sumScores_zero_score (scores : List ExamScore) (subj : String)
    (subjects : List String) :
    sumScores (scores ++ [(⟨subj, 0⟩ : ExamScore)]) subjects = sumScores scores subjects := by
  unfold sumScores
  have key : ∀ acc : ℚ, subjects.foldl
      (fun sum sj => (scores ++ [(⟨subj, 0⟩ : ExamScore)]).foldl
        (fun sum score => if score.Subject = sj then sum + score.Score else sum) sum) acc
      = subjects.foldl
      (fun sum sj => scores.foldl
        (fun sum score => if score.Subject = sj then sum + score.Score else sum) sum) acc := by
    induction subjects with
    | nil => intro acc; rfl
    | cons s ss ih =>
      intro acc
      simp only [List.foldl_cons]
      rw [foldl_add_zero_score]
      exact ih _
  exact key 0

theorem acceptedNames_perm (deps1 deps2 : List String) (hperm : deps1.Perm deps2)
    (admitted : Rosters) (name : String) :
    name ∈ acceptedNames deps1 admitted ↔ name ∈ acceptedNames deps2 admitted := by
  rw [acceptedNames_mem, acceptedNames_mem]
  constructor
  · rintro ⟨d, hd, rest⟩
    exact ⟨d, hperm.mem_iff.mp hd, rest⟩
  · rintro ⟨d, hd, rest⟩
    exact ⟨d, hperm.mem_iff.mpr hd, rest⟩

theorem admitLoop_perm (quota : Int) (deps1 deps2 : List String) (hnd : deps1.Nodup)
    (hperm : deps1.Perm deps2) (applicants admitted : Rosters) :
    admitLoop quota deps1 applicants admitted = admitLoop quota deps2 applicants admitted := by
  funext dep
  by_cases hd : dep ∈ deps1
  · rw [admitLoop_of_nodup _ _ _ _ hnd dep hd,
      admitLoop_of_nodup _ _ _ _ (hperm.nodup_iff.mp hnd) dep (hperm.mem_iff.mp hd)]
  · rw [admitLoop_not_mem _ _ _ _ _ hd,
      admitLoop_not_mem _ _ _ _ _ (fun h => hd (hperm.mem_iff.mpr h))]

/-! ## The ordering with ties -/

theorem stringsCompare_nonpos_iff (a b : String) :
    stringsCompare a b ≤ 0 ↔ nameLess a b ∨ a = b := by
  rw [le_iff_lt_or_eq, stringsCompare_neg_iff, stringsCompare_eq_zero_iff]

theorem cmpStudents_nonpos_iff (dep : String) (x y : Student) :
    cmpStudents dep x y ≤ 0 ↔ ranksBeforeOrTied dep x y := by
  unfold cmpStudents ranksBeforeOrTied
  by_cases he : getBestScore x dep = getBestScore y dep
  · simp [he, stringsCompare_nonpos_iff]
  · by_cases hg : getBestScore x dep > getBestScore y dep
    · simp [he, hg]
    · simp [he, hg]

theorem ranksBeforeOrTied_trans {dep : String} {x y z : Student}
    (h1 : ranksBeforeOrTied dep x y) (h2 : ranksBeforeOrTied dep y z) :
    ranksBeforeOrTied dep x z := by
  unfold ranksBeforeOrTied at *
  rcases h1 with h1 | ⟨e1, n1⟩ <;> rcases h2 with h2 | ⟨e2, n2⟩
  · exact Or.inl (gt_trans h1 h2)
  · exact Or.inl (e2 ▸ h1)
  · exact Or.inl (e1 ▸ h2)
  · refine Or.inr ⟨e1.trans e2, ?_⟩
    rcases n1 with n1 | n1 <;> rcases n2 with n2 | n2
    · exact Or.inl (nameLess_trans n1 n2)
    · exact Or.inl (n2 ▸ n1)
    · exact Or.inl (n1 ▸ n2)
    · exact Or.inr (n1.trans n2)

theorem ranksBefore_or_tied_rev (dep : String) (x y : Student) :
    ranksBefore dep x y ∨ ranksBeforeOrTied dep y x := by
  unfold ranksBefore ranksBeforeOrTied
  rcases lt_trichotomy (getBestScore x dep) (getBestScore y dep) with hl | he | hg
  · exact Or.inr (Or.inl hl)
  · by_cases hn : x.FullName = y.FullName
    · exact Or.inr (Or.inr ⟨he.symm, Or.inr hn.symm⟩)
    · rcases nameLess_total hn with h | h
      · exact Or.inl (Or.inr ⟨he, h⟩)
      · exact Or.inr (Or.inr ⟨he.symm, Or.inl h⟩)
  · exact Or.inl (Or.inl hg)

theorem ranksBefore_of_tied_of_ne {dep : String} {x y : Student}
    (h : ranksBeforeOrTied dep x y) (hne : x.FullName ≠ y.FullName) : ranksBefore dep x y := by
  unfold ranksBeforeOrTied at h
  unfold ranksBefore
  rcases h with h | ⟨e, n | n⟩
  · exact Or.inl h
  · exact Or.inr ⟨e, n⟩
  · exact absurd n hne

theorem insertLeft_pairwise_nonpos {α : Type} (cmp : α → α → Int)
    (htot : ∀ a b, cmp a b < 0 ∨ cmp b a ≤ 0)
    (htrans : ∀ a b c, cmp a b ≤ 0 → cmp b c ≤ 0 → cmp a c ≤ 0)
    (x : α) (l : List α) (hl : l.Pairwise (fun a b => cmp b a ≤ 0)) :
    (insertLeft cmp x l).Pairwise (fun a b => cmp b a ≤ 0) := by
  induction l with
  | nil => simp [insertLeft]
  | cons y ys ih =>
    rw [List.pairwise_cons] at hl
    unfold insertLeft
    split
    · rename_i hxy
      rw [List.pairwise_cons]
      refine ⟨?_, ih hl.2⟩
      intro z hz
      rcases List.mem_cons.mp ((insertLeft_perm cmp x ys).mem_iff.mp hz) with hz1 | hz1
      · rw [hz1]
        exact le_of_lt hxy
      · exact hl.1 z hz1
    · rename_i hxy
      have hyx : cmp y x ≤ 0 := (htot x y).resolve_left hxy
      rw [List.pairwise_cons]
      refine ⟨?_, List.pairwise_cons.mpr hl⟩
      intro z hz
      rcases List.mem_cons.mp hz with hz1 | hz1
      · rw [hz1]; exact hyx
      · exact htrans z y x (hl.1 z hz1) hyx

theorem sortFunc_pairwise_nonpos {α : Type} (cmp : α → α → Int)
    (htot : ∀ a b, cmp a b < 0 ∨ cmp b a ≤ 0)
    (htrans : ∀ a b c, cmp a b ≤ 0 → cmp b c ≤ 0 → cmp a c ≤ 0) (l : List α) :
    (sortFunc cmp l).Pairwise (fun a b => cmp a b ≤ 0) := by
  unfold sortFunc
  rw [List.pairwise_reverse]
  have key : ∀ acc : List α, acc.Pairwise (fun a b => cmp b a ≤ 0) →
      (l.foldl (fun sortedRev x => insertLeft cmp x sortedRev) acc).Pairwise
        (fun a b => cmp b a ≤ 0) := by
    induction l with
    | nil => exact fun acc hacc => hacc
    | cons x xs ih =>
      intro acc hacc
      simp only [List.foldl_cons]
      exact ih _ (insertLeft_pairwise_nonpos cmp htot htrans x acc hacc)
  exact key [] List.Pairwise.nil

/-- Whatever the names, the sorted slice is in ranking order with ties. -/
theorem sortFunc_ranked_tied (dep : String) (l : List Student) :
    (sortFunc (cmpStudents dep) l).Pairwise (ranksBeforeOrTied dep) := by
  have hp := sortFunc_pairwise_nonpos (cmpStudents dep)
    (fun a b => by
      rcases ranksBefore_or_tied_rev dep a b with h | h
      · exact Or.inl ((cmpStudents_neg_iff dep a b).mpr h)
      · exact Or.inr ((cmpStudents_nonpos_iff dep b a).mpr h))
    (fun a b c h1 h2 => (cmpStudents_nonpos_iff dep a c).mpr
      (ranksBeforeOrTied_trans ((cmpStudents_nonpos_iff dep a b).mp h1)
        ((cmpStudents_nonpos_iff dep b c).mp h2))) l
  exact hp.imp (fun {a b} h => (cmpStudents_nonpos_iff dep a b).mp h)

/-! ## Facts about the output -/

theorem writeAdmissions_departments (deps : List String) (admitted : Rosters) :
    (writeAdmissions deps admitted).map Prod.fst = deps := by
  induction deps generalizing admitted with
  | nil => rfl
  | cons d ds ih => simp [writeAdmissions, ih]

theorem printAdmissions_departments (deps : List String) (admitted : Rosters) :
    (printAdmissions deps admitted).map Prod.fst = deps := by
  induction deps generalizing admitted with
  | nil => rfl
  | cons d ds ih => simp [printAdmissions, ih]

theorem update_sorted_perm (admitted original : Rosters) (d : String)
    (h : ∀ dep, (admitted dep).Perm (original dep)) (dep : String) :
    (Function.update admitted d (sortFunc (cmpStudents d) (admitted d)) dep).Perm
      (original dep) := by
  by_cases hd : dep = d
  · subst hd
    rw [Function.update_same]
    exact (sortFunc_perm _ _).trans (h dep)
  · rw [Function.update_noteq hd]
    exact h dep

theorem writeAdmissions_entries (deps : List String) (admitted original : Rosters)
    (h : ∀ dep, (admitted dep).Perm (original dep))
    (entry : String × List (String × ℚ)) (hentry : entry ∈ writeAdmissions deps admitted) :
    ∃ current, current.Perm (original entry.1) ∧
      entry.2 = (sortFunc (cmpStudents entry.1) current).map
        (fun student => (student.FullName, getBestScore student entry.1)) := by
  induction deps generalizing admitted with
  | nil => simp [writeAdmissions] at hentry
  | cons d ds ih =>
    simp only [writeAdmissions, List.mem_cons] at hentry
    rcases hentry with he | he
    · subst he
      exact ⟨admitted d, h d, rfl⟩
    · exact ih _ (update_sorted_perm admitted original d h) he

theorem printAdmissions_entries (deps : List String) (admitted original : Rosters)
    (h : ∀ dep, (admitted dep).Perm (original dep))
    (entry : String × List (String × Option ℚ))
    (hentry : entry ∈ printAdmissions deps admitted) :
    ∃ current, current.Perm (original entry.1) ∧
      entry.2 = (sortFunc (cmpStudents entry.1) current).map
        (fun student => (student.FullName, getExamMeanScore student entry.1)) := by
  induction deps generalizing admitted with
  | nil => simp [printAdmissions] at hentry
  | cons d ds ih =>
    simp only [printAdmissions, List.mem_cons] at hentry
    rcases hentry with he | he
    · subst he
      exact ⟨admitted d, h d, rfl⟩
    · exact ih _ (update_sorted_perm admitted original d h) he

/-! ## The applicants admitted in one wave -/

theorem runStages_succ_last (quota : Int) (departments : List String) (n : Nat) (stage : Int)
    (st : Rosters × List Student) :
    runStages quota departments (n + 1) stage st =
      (runStages quota departments n stage st).bind
        (fun s => processDistributionStage (stage + (n : Int)) quota departments s.1 s.2) := by
  induction n generalizing stage st with
  | zero =>
    simp only [runStages, Nat.cast_zero, add_zero, Option.some_bind]
    cases processDistributionStage stage quota departments st.1 st.2 <;> rfl
  | succ n ih =>
    rw [runStages]
    cases hp : processDistributionStage stage quota departments st.1 st.2 with
    | none => simp [runStages, hp]
    | some st1 =>
      simp only
      rw [ih (stage + 1) st1]
      conv_rhs => rw [runStages]
      simp only [hp]
      have e : stage + 1 + (n : Int) = stage + ((n + 1 : Nat) : Int) := by
        push_cast
        ring
      rw [e]

theorem distribute_succ_last (k : Nat) (quota : Int) (departments : List String)
    (students : List Student) (st' : Rosters × List Student)
    (h : distribute (k + 1) quota departments students = some st') :
    ∃ st, distribute k quota departments students = some st ∧
      processDistributionStage (k : Int) quota departments st.1 st.2 = some st' := by
  unfold distribute at h
  rw [runStages_succ_last] at h
  cases hr : runStages quota departments k 0 (fun _ => [], students) with
  | none => simp [hr] at h
  | some st =>
    simp only [hr, Option.some_bind, zero_add] at h
    exact ⟨st, hr, h⟩

theorem mem_drop_of_not_mem_take {α : Type} (l : List α) (k : Nat) (s : α)
    (hs : s ∈ l) (hn : s ∉ l.take k) : s ∈ l.drop k ∧ k < l.length := by
  have h1 : s ∈ l.take k ++ l.drop k := by rw [List.take_append_drop]; exact hs
  have h2 : s ∈ l.drop k := (List.mem_append.mp h1).resolve_left hn
  refine ⟨h2, ?_⟩
  by_contra hk
  rw [List.drop_eq_nil_of_le (not_lt.mp hk)] at h2
  exact List.not_mem_nil _ h2

/-- One visit of a department: the applicants taken rank before (or tie with)
the applicants of the partition that are not taken, and if somebody is not taken
the roster has reached the quota. -/
theorem take_sorted_block (quota : Int) (dep : String) (roster partition : List Student) :
    (∀ t ∈ (sortFunc (cmpStudents dep) partition).take
        (min (quota - (roster.length : Int)) (partition.length : Int)).toNat,
      ∀ s ∈ partition,
        s ∉ (sortFunc (cmpStudents dep) partition).take
          (min (quota - (roster.length : Int)) (partition.length : Int)).toNat →
        ranksBeforeOrTied dep t s) ∧
    ((∃ s ∈ partition,
        s ∉ (sortFunc (cmpStudents dep) partition).take
          (min (quota - (roster.length : Int)) (partition.length : Int)).toNat) →
      quota ≤ ((roster ++ (sortFunc (cmpStudents dep) partition).take
        (min (quota - (roster.length : Int)) (partition.length : Int)).toNat).length : Int)) := by
  constructor
  · intro t ht s hs hn
    have hd := (mem_drop_of_not_mem_take _ _ s ((mem_sortFunc _ _ _).mpr hs) hn).1
    have hp := sortFunc_ranked_tied dep partition
    rw [← List.take_append_drop
      (min (quota - (roster.length : Int)) (partition.length : Int)).toNat
      (sortFunc (cmpStudents dep) partition), List.pairwise_append] at hp
    exact hp.2.2 t ht s hd
  · rintro ⟨s, hs, hn⟩
    have hk := (mem_drop_of_not_mem_take _ _ s ((mem_sortFunc _ _ _).mpr hs) hn).2
    rw [sortFunc_length] at hk
    rw [List.length_append, List.length_take, sortFunc_length]
    omega

theorem admitLoop_block (quota : Int) (deps : List String) (applicants admitted : Rosters)
    (dep : String) :
    ∃ block, admitLoop quota deps applicants admitted dep = admitted dep ++ block ∧
      (∀ t ∈ block, t ∈ applicants dep) ∧
      (∀ t ∈ block, ∀ s ∈ applicants dep, s ∉ block → ranksBeforeOrTied dep t s) ∧
      (dep ∈ deps → (∃ s ∈ applicants dep, s ∉ block) →
        quota ≤ ((admitted dep ++ block).length : Int)) := by
  induction deps generalizing applicants admitted with
  | nil =>
    exact ⟨[], by simp [admitLoop], by simp, by simp, by simp⟩
  | cons d ds ih =>
    rw [admitLoop_cons]
    obtain ⟨block, hb1, hb2, hb3, hb4⟩ := ih
      (Function.update applicants d (sortFunc (cmpStudents d) (applicants d)))
      (Function.update admitted d (admitted d ++
        (sortFunc (cmpStudents d) (applicants d)).take
          (min (quota - ((admitted d).length : Int)) ((applicants d).length : Int)).toNat))
    by_cases hd : dep = d
    · subst hd
      simp only [Function.update_same] at hb1 hb2 hb3 hb4
      obtain ⟨ht1, ht2⟩ := take_sorted_block quota dep (admitted dep) (applicants dep)
      refine ⟨(sortFunc (cmpStudents dep) (applicants dep)).take
          (min (quota - ((admitted dep).length : Int)) ((applicants dep).length : Int)).toNat
          ++ block, ?_, ?_, ?_, ?_⟩
      · rw [hb1, List.append_assoc]
      · intro t ht
        rcases List.mem_append.mp ht with h1 | h1
        · exact (mem_sortFunc _ _ _).mp (List.mem_of_mem_take h1)
        · exact (mem_sortFunc _ _ _).mp (hb2 t h1)
      · intro t ht s hs hn
        rcases List.mem_append.mp ht with h1 | h1
        · exact ht1 t h1 s hs (fun hc => hn (List.mem_append_left _ hc))
        · exact hb3 t h1 s ((mem_sortFunc _ _ _).mpr hs)
            (fun hc => hn (List.mem_append_right _ hc))
      · rintro _ ⟨s, hs, hn⟩
        have h2 := ht2 ⟨s, hs, fun hc => hn (List.mem_append_left _ hc)⟩
        rw [← List.append_assoc, List.length_append]
        omega
    · simp only [Function.update_noteq hd] at hb1 hb2 hb3 hb4
      refine ⟨block, hb1, hb2, hb3, ?_⟩
      intro hmem
      rcases List.mem_cons.mp hmem with h1 | h1
      · exact absurd h1 hd
      · exact hb4 h1

/-! ## Who can be admitted -/

theorem unknown_preference_stays (stage quota : Int) (deps : List String) (adm : Rosters)
    (rem : List Student) (st : Rosters × List Student)
    (h : processDistributionStage stage quota deps adm rem = some st)
    (s : Student) (hs : s ∈ rem)
    (hpref : ∀ dep ∈ deps, index s.Departments stage ≠ some dep)
    (huniq : ∀ t ∈ rem, t.FullName = s.FullName → t = s)
    (hfree : ∀ dep ∈ deps, ∀ t ∈ adm dep, t.FullName ≠ s.FullName) :
    s ∈ st.2 ∧ ∀ dep ∈ deps, ∀ t ∈ st.1 dep, t.FullName ≠ s.FullName := by
  obtain ⟨ap, hap, h1, h2⟩ := processDistributionStage_eq_some _ _ _ _ _ _ h
  have key : ∀ dep ∈ deps, ∀ t ∈ st.1 dep, t.FullName ≠ s.FullName := by
    intro dep hdep t ht hts
    rw [h1] at ht
    rcases mem_admitLoop _ _ _ _ _ _ ht with ht1 | ⟨_, ht1⟩
    · exact hfree dep hdep t ht1 hts
    · rw [hap dep] at ht1
      simp only [partitionOf, List.mem_filter, decide_eq_true_eq] at ht1
      have hts2 : t = s := huniq t ht1.1 hts
      rw [hts2] at ht1
      exact hpref dep hdep ht1.2
  refine ⟨?_, key⟩
  rw [h2, List.mem_filter]
  refine ⟨hs, ?_⟩
  have hnot : s.FullName ∉ acceptedNames deps st.1 := by
    intro hc
    obtain ⟨dep, hdep, t, ht, hts⟩ := (acceptedNames_mem _ _ _).mp hc
    exact key dep hdep t ht hts
  simpa using hnot

theorem distribute_admitted_named (quota : Int) (departments : List String)
    (students : List Student) (k : Nat) (st : Rosters × List Student)
    (h : distribute k quota departments students = some st) (dep : String) (s : Student)
    (hs : s ∈ st.1 dep) :
    dep ∈ departments ∧ s ∈ students ∧
      ∃ i : Nat, i < k ∧ index s.Departments (i : Int) = some dep := by
  induction k generalizing st with
  | zero =>
    simp only [distribute, runStages, Option.some.injEq] at h
    rw [← h] at hs
    exact absurd hs (List.not_mem_nil _)
  | succ k ih =>
    obtain ⟨st0, hst0, hp⟩ := distribute_succ_last k quota departments students st h
    obtain ⟨ap, hap, h1, _⟩ := processDistributionStage_eq_some _ _ _ _ _ _ hp
    rw [h1] at hs
    rcases mem_admitLoop _ _ _ _ _ _ hs with hs1 | ⟨hd, hs1⟩
    · obtain ⟨hd, hmem, i, hi, hidx⟩ := ih st0 hst0 hs1
      exact ⟨hd, hmem, i, Nat.lt_succ_of_lt hi, hidx⟩
    · rw [hap dep] at hs1
      simp only [partitionOf, List.mem_filter, decide_eq_true_eq] at hs1
      have hsub : st0.2.Sublist students := by
        have := runStages_invariant (fun st => st.2.Sublist students) quota departments
          (fun stage a b ha hb =>
            (processDistributionStage_subset _ _ _ _ _ _ hb).trans ha)
          k 0 (fun _ => [], students) st0 (List.Sublist.refl _) hst0
        exact this
      exact ⟨hd, hsub.subset hs1.1, k, Nat.lt_succ_self k, hs1.2⟩

/-! ## Independence of the order of the pool -/

theorem processDistributionStage_some_index (stage quota : Int) (departments : List String)
    (admitted : Rosters) (remaining : List Student) (st : Rosters × List Student)
    (h : processDistributionStage stage quota departments admitted remaining = some st) :
    ∀ s ∈ remaining, ∃ dep, index s.Departments stage = some dep := by
  have key : ∀ (rem : List Student) (m : Rosters),
      (collectApplicants stage rem m).isSome →
      ∀ s ∈ rem, ∃ dep, index s.Departments stage = some dep := by
    intro rem
    induction rem with
    | nil => intro _ _ s hs; exact absurd hs (List.not_mem_nil _)
    | cons a rest ih =>
      intro m hm s hs
      unfold collectApplicants at hm
      cases hidx : index a.Departments stage with
      | none => simp [hidx] at hm
      | some d =>
        simp only [hidx] at hm
        rcases List.mem_cons.mp hs with h1 | h1
        · rw [h1]; exact ⟨d, hidx⟩
        · exact ih _ hm s h1
  apply key remaining (fun _ => [])
  unfold processDistributionStage at h
  cases hc : collectApplicants stage remaining (fun _ => []) with
  | none => simp [hc] at h
  | some ap => rfl

theorem admitLoop_congr_perm (quota : Int) (deps : List String) (ap1 ap2 adm : Rosters)
    (hperm : ∀ dep, (ap1 dep).Perm (ap2 dep))
    (hnames : ∀ dep, ((ap1 dep).map Student.FullName).Nodup) :
    admitLoop quota deps ap1 adm = admitLoop quota deps ap2 adm := by
  induction deps generalizing ap1 ap2 adm with
  | nil => rfl
  | cons d ds ih =>
    rw [admitLoop_cons, admitLoop_cons]
    have hsort : sortFunc (cmpStudents d) (ap1 d) = sortFunc (cmpStudents d) (ap2 d) :=
      ranked_perm_unique d (ap2 d) _
        (((hperm d).map _).nodup_iff.mp (hnames d))
        ((sortFunc_perm _ _).trans (hperm d)) (sortFunc_ranked d (ap1 d) (hnames d))
    rw [hsort, (hperm d).length_eq]
    apply ih
    · intro dep
      by_cases hd : dep = d
      · subst hd
        simp only [Function.update_same]
        exact List.Perm.refl _
      · simp only [Function.update_noteq hd]
        exact hperm dep
    · intro dep
      by_cases hd : dep = d
      · subst hd
        simp only [Function.update_same]
        rw [(((sortFunc_perm (cmpStudents dep) (ap2 dep)).trans (hperm dep).symm).map _).nodup_iff]
        exact hnames dep
      · simp only [Function.update_noteq hd]
        exact hnames dep

theorem stage_perm_pool (stage quota : Int) (deps : List String) (adm : Rosters)
    (rem1 rem2 : List Student) (st1 : Rosters × List Student)
    (hperm : rem1.Perm rem2) (hnames : (rem1.map Student.FullName).Nodup)
    (h : processDistributionStage stage quota deps adm rem1 = some st1) :
    ∃ st2, processDistributionStage stage quota deps adm rem2 = some st2 ∧
      st2.1 = st1.1 ∧ st1.2.Perm st2.2 := by
  have hidx := processDistributionStage_some_index _ _ _ _ _ _ h
  obtain ⟨st2, hst2⟩ := processDistributionStage_total stage quota deps adm rem2
    (fun s hs => hidx s (hperm.mem_iff.mpr hs))
  obtain ⟨ap1, hap1, h11, h12⟩ := processDistributionStage_eq_some _ _ _ _ _ _ h
  obtain ⟨ap2, hap2, h21, h22⟩ := processDistributionStage_eq_some _ _ _ _ _ _ hst2
  have e1 : st2.1 = st1.1 := by
    rw [h21, h11]
    apply (admitLoop_congr_perm quota deps ap1 ap2 adm _ _).symm
    · intro dep
      rw [hap1 dep, hap2 dep]
      exact hperm.filter _
    · intro dep
      rw [hap1 dep]
      exact ((List.filter_sublist _).map _).nodup hnames
  refine ⟨st2, hst2, e1, ?_⟩
  rw [h12, h22, e1]
  exact hperm.filter _

theorem runStages_perm_pool (quota : Int) (deps : List String) (n : Nat) (stage : Int)
    (st1 st2 r1 : Rosters × List Student) (h1 : st2.1 = st1.1) (hperm : st1.2.Perm st2.2)
    (hnames : (st1.2.map Student.FullName).Nodup)
    (h : runStages quota deps n stage st1 = some r1) :
    ∃ r2, runStages quota deps n stage st2 = some r2 ∧ r2.1 = r1.1 ∧ r1.2.Perm r2.2 := by
  induction n generalizing stage st1 st2 with
  | zero =>
    simp only [runStages, Option.some.injEq] at h
    subst h
    exact ⟨st2, rfl, h1, hperm⟩
  | succ n ih =>
    unfold runStages at h
    cases hp : processDistributionStage stage quota deps st1.1 st1.2 with
    | none => simp [hp] at h
    | some s1 =>
      simp only [hp] at h
      obtain ⟨s2, hs2, e1, e2⟩ := stage_perm_pool stage quota deps st1.1 st1.2 st2.2 s1
        hperm hnames hp
      have hsub := processDistributionStage_subset _ _ _ _ _ _ hp
      obtain ⟨r2, hr2, e3, e4⟩ := ih (stage + 1) s1 s2 e1 e2 ((hsub.map _).nodup hnames) h
      refine ⟨r2, ?_, e3, e4⟩
      unfold runStages
      rw [h1, hs2]
      exact hr2

/-! ## Preferences beyond the last wave -/

theorem cmpStudents_truncate (dep : String) (a b : Student) :
    cmpStudents dep (truncatePreferences a) (truncatePreferences b) = cmpStudents dep a b := rfl

theorem index_truncate (s : Student) (i : Nat) (hi : i < admissionStages) :
    index (truncatePreferences s).Departments (i : Int) = index s.Departments (i : Int) := by
  unfold index truncatePreferences
  have h0 : ¬ ((i : Int) < 0) := by omega
  simp only [h0, if_false, Int.toNat_ofNat, List.get?_eq_getElem?]
  exact List.getElem?_take_of_lt hi

theorem insertLeft_map {α : Type} (cmp : α → α → Int) (f : α → α)
    (hf : ∀ a b, cmp (f a) (f b) = cmp a b) (x : α) (l : List α) :
    insertLeft cmp (f x) (l.map f) = (insertLeft cmp x l).map f := by
  induction l with
  | nil => rfl
  | cons y ys ih =>
    simp only [List.map_cons, insertLeft, hf]
    split
    · simp only [List.map_cons, ih]
    · rfl

theorem sortFunc_map {α : Type} (cmp : α → α → Int) (f : α → α)
    (hf : ∀ a b, cmp (f a) (f b) = cmp a b) (l : List α) :
    sortFunc cmp (l.map f) = (sortFunc cmp l).map f := by
  unfold sortFunc
  have key : ∀ acc : List α,
      (l.map f).foldl (fun sortedRev x => insertLeft cmp x sortedRev) (acc.map f)
        = (l.foldl (fun sortedRev x => insertLeft cmp x sortedRev) acc).map f := by
    induction l with
    | nil => intro acc; rfl
    | cons x xs ih =>
      intro acc
      simp only [List.map_cons, List.foldl_cons]
      rw [insertLeft_map cmp f hf, ih]
  have := key []
  simp only [List.map_nil] at this
  rw [this, List.map_reverse]

theorem update_map (g : Rosters) (f : Student → Student) (d : String) (v : List Student) :
    Function.update (fun dep => (g dep).map f) d (v.map f)
      = fun dep => (Function.update g d v dep).map f := by
  funext dep
  by_cases hd : dep = d
  · subst hd
    simp only [Function.update_same]
  · simp only [Function.update_noteq hd]

theorem collectApplicants_truncate (stage : Nat) (hstage : stage < admissionStages)
    (remaining : List Student) (m : Rosters) :
    collectApplicants (stage : Int) (remaining.map truncatePreferences)
        (fun dep => (m dep).map truncatePreferences)
      = (collectApplicants (stage : Int) remaining m).map
        (fun m' dep => (m' dep).map truncatePreferences) := by
  induction remaining generalizing m with
  | nil => rfl
  | cons s rest ih =>
    simp only [List.map_cons, collectApplicants, index_truncate s stage hstage]
    cases index s.Departments (stage : Int) with
    | none => rfl
    | some d =>
      simp only
      rw [← ih]
      congr 1
      rw [← update_map]
      simp

theorem admitLoop_truncate (quota : Int) (deps : List String) (applicants admitted : Rosters) :
    admitLoop quota deps (fun dep => (applicants dep).map truncatePreferences)
        (fun dep => (admitted dep).map truncatePreferences)
      = fun dep => (admitLoop quota deps applicants admitted dep).map truncatePreferences := by
  induction deps generalizing applicants admitted with
  | nil => rfl
  | cons d ds ih =>
    rw [admitLoop_cons, admitLoop_cons]
    simp only [sortFunc_map (cmpStudents d) truncatePreferences (cmpStudents_truncate d),
      List.length_map, ← List.map_take, ← List.map_append, update_map]
    exact ih _ _

theorem acceptedNames_truncate (departments : List String) (admitted : Rosters) :
    acceptedNames departments (fun dep => (admitted dep).map truncatePreferences)
      = acceptedNames departments admitted := by
  unfold acceptedNames
  congr 1
  funext dep
  rw [List.map_map]
  rfl

theorem processDistributionStage_truncate (stage : Nat) (hstage : stage < admissionStages)
    (quota : Int) (departments : List String) (st : Rosters × List Student) :
    processDistributionStage (stage : Int) quota departments
        (truncateState st).1 (truncateState st).2
      = (processDistributionStage (stage : Int) quota departments st.1 st.2).map
        truncateState := by
  unfold processDistributionStage truncateState
  have hc := collectApplicants_truncate stage hstage st.2 (fun _ => [])
  simp only [List.map_nil] at hc
  simp only [hc]
  cases collectApplicants (stage : Int) st.2 (fun _ => []) with
  | none => rfl
  | some ap =>
    simp only [Option.map_some', admitLoop_truncate, acceptedNames_truncate,
      Option.some.injEq, Prod.mk.injEq, true_and]
    rw [List.filter_map]
    rfl

theorem runStages_truncate (quota : Int) (departments : List String) (n stage : Nat)
    (hn : stage + n ≤ admissionStages) (st : Rosters × List Student) :
    runStages quota departments n (stage : Int) (truncateState st)
      = (runStages quota departments n (stage : Int) st).map truncateState := by
  induction n generalizing stage st with
  | zero => rfl
  | succ n ih =>
    unfold runStages
    rw [processDistributionStage_truncate stage (by omega)]
    cases processDistributionStage (stage : Int) quota departments st.1 st.2 with
    | none => rfl
    | some s1 =>
      simp only [Option.map_some']
      have := ih (stage + 1) (by omega) s1
      simpa using this

theorem distribute_truncate (quota : Int) (departments : List String)
    (students : List Student) (k : Nat) (hk : k ≤ admissionStages) :
    distribute k quota departments (students.map truncatePreferences)
      = (distribute k quota departments students).map truncateState := by
  have := runStages_truncate quota departments k 0 (by omega) (fun _ => [], students)
  simpa [distribute, truncateState] using this

/-! ## Verified properties, continued -/

/-- C15 (quota at most zero).  For a quota `q ≤ 0` and any pool, from empty
rosters, after any number of waves every roster is empty and the remaining pool
is the initial pool; with three preferences per applicant the waves return a
state. -/
theorem quota_nonpositive (quota : Int) (hq : quota ≤ 0) (departments : List String)
    (students : List Student) :
    (∀ k st, distribute k quota departments students = some st →
      (∀ dep, st.1 dep = []) ∧ st.2 = students) ∧
    ((∀ s ∈ students, admissionStages ≤ s.Departments.length) →
      ∀ k, k ≤ admissionStages → ∃ st, distribute k quota departments students = some st) := by
  refine ⟨?_, fun hp k hk => distribute_total quota departments students hp k hk⟩
  intro k st h
  have key : st = (fun _ => [], students) := by
    refine runStages_invariant (fun st => st = (fun _ => [], students)) quota departments ?_
      k 0 (fun _ => [], students) st rfl h
    intro stage s s' hs hp
    subst hs
    exact stage_no_capacity stage quota hq departments students s' hp
  rw [key]
  exact ⟨fun _ => rfl, rfl⟩

/-- C16, as amended.  For an applicant without a score for one of the subjects
of the department, `getExamMeanScore` does not fail: it returns a number, the
same as for the record completed with the score zero for that subject, namely
the sum of the scores held for the other subjects of the department divided by
the number of all subjects of the department. -/
theorem missing_score_counts_as_zero (s : Student) (dep subj : String)
    (hsubj : subj ∈ depToSubjects dep)
    (hmissing : s.ExamScores.filter (fun e => decide (e.Subject = subj)) = []) :
    ∃ mean, getExamMeanScore s dep = some mean ∧
      getExamMeanScore (withZeroScore s subj) dep = some mean ∧
      mean = sumScores s.ExamScores ((depToSubjects dep).filter (fun sj => decide (sj ≠ subj)))
        / ((depToSubjects dep).length : ℚ) := by
  have hlen : (depToSubjects dep).length ≠ 0 := by
    intro h0
    rw [List.length_eq_zero.mp h0] at hsubj
    exact List.not_mem_nil _ hsubj
  refine ⟨sumScores s.ExamScores (depToSubjects dep) / ((depToSubjects dep).length : ℚ),
    ?_, ?_, ?_⟩
  · unfold getExamMeanScore
    simp only [hlen, if_false]
  · unfold getExamMeanScore withZeroScore
    simp only [hlen, if_false, sumScores_zero_score]
  · rw [sumScores_eq_sum, sumScores_eq_sum, sum_filter_ne _ subj _ hmissing]

/-- C17 (order of the departments).  For a duplicate-free department list and
any reordering of it, a wave returns the same result: the same roster for every
department and the same remaining pool (and it fails on the same inputs). -/
theorem department_order_independent (stage quota : Int) (deps1 deps2 : List String)
    (hnd : deps1.Nodup) (hperm : deps1.Perm deps2) (admitted : Rosters)
    (remaining : List Student) :
    processDistributionStage stage quota deps1 admitted remaining =
      processDistributionStage stage quota deps2 admitted remaining := by
  unfold processDistributionStage
  cases collectApplicants stage remaining (fun _ => []) with
  | none => rfl
  | some ap =>
    simp only
    rw [admitLoop_perm quota deps1 deps2 hnd hperm ap admitted]
    congr 2
    apply List.filter_congr
    intro s _
    have := acceptedNames_perm deps1 deps2 hperm
      (admitLoop quota deps2 ap admitted) s.FullName
    by_cases hm : s.FullName ∈ acceptedNames deps1 (admitLoop quota deps2 ap admitted)
    · simp [hm, this.mp hm]
    · have hn : s.FullName ∉ acceptedNames deps2 (admitLoop quota deps2 ap admitted) :=
        fun hc => hm (this.mpr hc)
      simp [hm, hn]

/-- C18 (duplicate full names).  Two different applicants with the same full
name, both naming Physics at wave 0, quota 1: after one call the one with the
higher score is on the Physics roster, the other one is on no roster and not in
the remaining pool, which is empty; the later waves change nothing. -/
theorem duplicate_name_blocks :
    sam1 ≠ sam2 ∧ sam1.FullName = sam2.FullName ∧
    (∃ st, processDistributionStage 0 1 mainDepartments (fun _ => []) [sam1, sam2] = some st ∧
      st.1 "Physics" = [sam1] ∧ (∀ dep, sam2 ∉ st.1 dep) ∧ sam2 ∉ st.2 ∧ st.2 = []) ∧
    (distribute 3 1 mainDepartments [sam1, sam2]).map
      (fun st => (mainDepartments.map st.1, st.2)) = some ([[], [], [], [], [sam1]], []) := by
  refine ⟨by with_unfolding_all decide, rfl, ⟨_, rfl, ?_, ?_, ?_, ?_⟩, ?_⟩
  · with_unfolding_all decide
  · intro dep hmem
    by_cases hdep : dep ∈ mainDepartments
    · have hall : ∀ d ∈ mainDepartments, sam2 ∉ admitLoop 1 mainDepartments
          (Function.update (Function.update (fun _ => []) "Physics" ([] ++ [sam1])) "Physics"
            (Function.update (fun _ => []) "Physics" ([] ++ [sam1]) "Physics" ++ [sam2]))
          (fun _ => []) d := by
        with_unfolding_all decide
      exact hall dep hdep hmem
    · dsimp only at hmem
      rw [admitLoop_not_mem _ _ _ _ _ hdep] at hmem
      exact List.not_mem_nil _ hmem
  · with_unfolding_all decide
  · with_unfolding_all decide
  · with_unfolding_all decide

/-- C11, as amended.  For a duplicate-free department list, the applicants that
one wave adds to a roster stand at its end in ranking order (higher best score,
or equal best score and smaller or equal full name); in particular every roster
is ranked after wave 0.  Nothing is claimed across waves: the roster is the
concatenation of the blocks of the waves. -/
theorem wave_block_ranked (quota : Int) (departments : List String)
    (hnd : departments.Nodup) (students : List Student) :
    (∀ k st', distribute (k + 1) quota departments students = some st' →
      ∃ st, distribute k quota departments students = some st ∧
        ∀ dep, ∃ block, st'.1 dep = st.1 dep ++ block ∧
          block.Chain' (fun x y => getBestScore x dep > getBestScore y dep ∨
            (getBestScore x dep = getBestScore y dep ∧
              (nameLess x.FullName y.FullName ∨ x.FullName = y.FullName))) ∧
          block.Pairwise (ranksBeforeOrTied dep)) ∧
    (∀ st, distribute 1 quota departments students = some st →
      ∀ dep, (st.1 dep).Pairwise (ranksBeforeOrTied dep)) := by
  have step : ∀ k st', distribute (k + 1) quota departments students = some st' →
      ∃ st, distribute k quota departments students = some st ∧
        ∀ dep, ∃ block, st'.1 dep = st.1 dep ++ block ∧
          block.Pairwise (ranksBeforeOrTied dep) := by
    intro k st' h
    obtain ⟨st, hst, hp⟩ := distribute_succ_last k quota departments students st' h
    refine ⟨st, hst, ?_⟩
    intro dep
    obtain ⟨ap, _, h1, _⟩ := processDistributionStage_eq_some _ _ _ _ _ _ hp
    by_cases hd : dep ∈ departments
    · refine ⟨(sortFunc (cmpStudents dep) (ap dep)).take
          (min (quota - ((st.1 dep).length : Int)) ((ap dep).length : Int)).toNat, ?_, ?_⟩
      · rw [h1]
        exact admitLoop_of_nodup quota departments ap st.1 hnd dep hd
      · exact (sortFunc_ranked_tied dep (ap dep)).sublist (List.take_sublist _ _)
    · refine ⟨[], ?_, List.Pairwise.nil⟩
      rw [h1, admitLoop_not_mem _ _ _ _ _ hd, List.append_nil]
  constructor
  · intro k st' h
    obtain ⟨st, hst, hblocks⟩ := step k st' h
    refine ⟨st, hst, fun dep => ?_⟩
    obtain ⟨block, hb1, hb2⟩ := hblocks dep
    exact ⟨block, hb1, List.Pairwise.chain' hb2, hb2⟩
  · intro st h dep
    obtain ⟨st0, hst0, hblocks⟩ := step 0 st h
    obtain ⟨block, hb1, hb2⟩ := hblocks dep
    simp only [distribute, runStages, Option.some.injEq] at hst0
    rw [hb1, ← hst0]
    exact hb2

/-- C12 (output order).  `writeAdmissions` and `printAdmissions` emit one entry
per listed department, in the order of the list; the lines of an entry are those
of a sequence of applicants that is a permutation of the roster of the
department, ordered by best score descending and full name ascending, the
result of the sort of the allocation (`sortFunc` with `cmpStudents`). -/
theorem output_order (departments : List String) (admitted : Rosters) :
    (writeAdmissions departments admitted).map Prod.fst = departments ∧
    (printAdmissions departments admitted).map Prod.fst = departments ∧
    (∀ entry ∈ writeAdmissions departments admitted,
      ∃ students : List Student, students.Perm (admitted entry.1) ∧
        students.Pairwise (ranksBeforeOrTied entry.1) ∧
        (∃ current, current.Perm (admitted entry.1) ∧
          students = sortFunc (cmpStudents entry.1) current) ∧
        entry.2 = students.map
          (fun student => (student.FullName, getBestScore student entry.1))) ∧
    (∀ entry ∈ printAdmissions departments admitted,
      ∃ students : List Student, students.Perm (admitted entry.1) ∧
        students.Pairwise (ranksBeforeOrTied entry.1) ∧
        (∃ current, current.Perm (admitted entry.1) ∧
          students = sortFunc (cmpStudents entry.1) current) ∧
        entry.2 = students.map
          (fun student => (student.FullName, getExamMeanScore student entry.1))) := by
  refine ⟨writeAdmissions_departments _ _, printAdmissions_departments _ _, ?_, ?_⟩
  · intro entry hentry
    obtain ⟨current, hc1, hc2⟩ := writeAdmissions_entries departments admitted admitted
      (fun _ => List.Perm.refl _) entry hentry
    exact ⟨sortFunc (cmpStudents entry.1) current, (sortFunc_perm _ _).trans hc1,
      sortFunc_ranked_tied _ _, ⟨current, hc1, rfl⟩, hc2⟩
  · intro entry hentry
    obtain ⟨current, hc1, hc2⟩ := printAdmissions_entries departments admitted admitted
      (fun _ => List.Perm.refl _) entry hentry
    exact ⟨sortFunc (cmpStudents entry.1) current, (sortFunc_perm _ _).trans hc1,
      sortFunc_ranked_tied _ _, ⟨current, hc1, rfl⟩, hc2⟩

/-- C19 (no seat is wasted).  For any call, an applicant who is still in the
remaining pool afterwards and whose preference at this wave is a listed
department `dep` finds the roster of `dep` at least as long as the quota, and
every applicant added to that roster in this call ranks before that applicant:
higher best score, or equal best score and smaller full name. -/
theorem no_seat_wasted (stage quota : Int) (departments : List String)
    (admitted : Rosters) (remaining : List Student) (st : Rosters × List Student)
    (h : processDistributionStage stage quota departments admitted remaining = some st)
    (s : Student) (hs : s ∈ st.2) (dep : String) (hdep : dep ∈ departments)
    (hpref : index s.Departments stage = some dep) :
    quota ≤ ((st.1 dep).length : Int) ∧
    ∃ block, st.1 dep = admitted dep ++ block ∧ ∀ t ∈ block, ranksBefore dep t s := by
  obtain ⟨ap, hap, h1, h2⟩ := processDistributionStage_eq_some _ _ _ _ _ _ h
  obtain ⟨block, hb1, _, hb3, hb4⟩ := admitLoop_block quota departments ap admitted dep
  rw [← h1] at hb1
  rw [h2, List.mem_filter] at hs
  have hnot : s.FullName ∉ acceptedNames departments st.1 := by simpa using hs.2
  have hname : ∀ t ∈ st.1 dep, t.FullName ≠ s.FullName := fun t ht hts =>
    hnot ((acceptedNames_mem _ _ _).mpr ⟨dep, hdep, t, ht, hts⟩)
  have hsap : s ∈ ap dep := by
    rw [hap dep]
    simp [partitionOf, hs.1, hpref]
  have hsblock : s ∉ block := fun hc =>
    hname s (by rw [hb1]; exact List.mem_append_right _ hc) rfl
  refine ⟨?_, block, hb1, ?_⟩
  · rw [hb1]
    exact hb4 hdep ⟨s, hsap, hsblock⟩
  · intro t ht
    exact ranksBefore_of_tied_of_ne (hb3 t ht s hsap hsblock)
      (hname t (by rw [hb1]; exact List.mem_append_right _ ht))

/-- C14 (unknown department).  In a call whose pool and listed rosters bear
pairwise distinct names, an applicant of the pool whose preference at this wave
is no listed department is still in the remaining pool afterwards and on no
roster (the rosters of the unlisted departments do not change); over a run from
empty rosters, an applicant whose three preferences are all unlisted is in the
remaining pool and on no roster after each wave. -/
theorem unknown_department (quota : Int) (departments : List String) :
    (∀ stage admitted remaining st s,
      processDistributionStage stage quota departments admitted remaining = some st →
      ((departments.flatMap admitted ++ remaining).map Student.FullName).Nodup →
      s ∈ remaining →
      (∀ dep ∈ departments, index s.Departments stage ≠ some dep) →
      s ∈ st.2 ∧ (∀ dep ∈ departments, s ∉ st.1 dep) ∧
        (∀ dep, dep ∉ departments → st.1 dep = admitted dep)) ∧
    (∀ students s, (students.map Student.FullName).Nodup → s ∈ students →
      (∀ i : Nat, i < admissionStages →
        ∀ dep ∈ departments, index s.Departments (i : Int) ≠ some dep) →
      ∀ k, k ≤ admissionStages → ∀ st,
        distribute k quota departments students = some st →
        s ∈ st.2 ∧ ∀ dep, s ∉ st.1 dep) := by
  constructor
  · intro stage admitted remaining st s h hnames hs hpref
    have hall : (departments.flatMap admitted ++ remaining).Nodup := List.Nodup.of_map _ hnames
    have hinj := List.inj_on_of_nodup_map hnames
    have hdisj := (List.nodup_append.mp hall).2.2
    have hres := unknown_preference_stays stage quota departments admitted remaining st h s hs
      hpref
      (fun t ht hts => hinj (List.mem_append_right _ ht) (List.mem_append_right _ hs) hts)
      (fun dep hdep t ht hts => by
        have htl : t ∈ departments.flatMap admitted := List.mem_flatMap.mpr ⟨dep, hdep, ht⟩
        have hts2 : t = s :=
          hinj (List.mem_append_left _ htl) (List.mem_append_right _ hs) hts
        exact hdisj htl (hts2 ▸ hs))
    refine ⟨hres.1, fun dep hdep hmem => hres.2 dep hdep s hmem rfl, ?_⟩
    intro dep hdep
    obtain ⟨ap, _, h1, _⟩ := processDistributionStage_eq_some _ _ _ _ _ _ h
    rw [h1, admitLoop_not_mem _ _ _ _ _ hdep]
  · intro students s hnames hs hprefs k hk st h
    have hinj := List.inj_on_of_nodup_map hnames
    have inv : ∀ k, k ≤ admissionStages → ∀ st,
        distribute k quota departments students = some st →
        s ∈ st.2 ∧ st.2.Sublist students ∧
          ∀ dep ∈ departments, ∀ t ∈ st.1 dep, t.FullName ≠ s.FullName := by
      intro k
      induction k with
      | zero =>
        intro _ st h
        simp only [distribute, runStages, Option.some.injEq] at h
        rw [← h]
        exact ⟨hs, List.Sublist.refl _, fun _ _ t ht => absurd ht (List.not_mem_nil _)⟩
      | succ k ih =>
        intro hk st h
        obtain ⟨st0, hst0, hp⟩ := distribute_succ_last k quota departments students st h
        obtain ⟨i1, i2, i3⟩ := ih (Nat.le_of_succ_le hk) st0 hst0
        have hres := unknown_preference_stays (k : Int) quota departments st0.1 st0.2 st hp s i1
          (hprefs k hk)
          (fun t ht hts => hinj (i2.subset ht) hs hts) i3
        exact ⟨hres.1, (processDistributionStage_subset _ _ _ _ _ _ hp).trans i2, hres.2⟩
    obtain ⟨j1, _, j3⟩ := inv k hk st h
    refine ⟨j1, fun dep hmem => ?_⟩
    have hd := (distribute_admitted_named quota departments students k st h dep s hmem).1
    exact j3 dep hd s hmem rfl

/-- C13 (independence of the input order).  For a pool with pairwise distinct
full names and any reordering of it, with the same quota and department list,
after any number of waves the run on the reordered pool returns whenever the run
on the pool does, with exactly the same roster, as a sequence, for every
department (the remaining pools are reorderings of each other). -/
theorem input_order_independent (quota : Int) (departments : List String)
    (students students' : List Student) (hnames : (students.map Student.FullName).Nodup)
    (hperm : students.Perm students') :
    (∀ k st, distribute k quota departments students = some st →
      ∃ st', distribute k quota departments students' = some st' ∧
        (∀ dep, st'.1 dep = st.1 dep) ∧ st.2.Perm st'.2) ∧
    (∀ k, (distribute k quota departments students).isSome =
      (distribute k quota departments students').isSome) := by
  have fwd : ∀ (p p' : List Student), (p.map Student.FullName).Nodup → p.Perm p' →
      ∀ k st, distribute k quota departments p = some st →
      ∃ st', distribute k quota departments p' = some st' ∧
        (∀ dep, st'.1 dep = st.1 dep) ∧ st.2.Perm st'.2 := by
    intro p p' hn hp k st h
    obtain ⟨r2, hr2, e1, e2⟩ := runStages_perm_pool quota departments k 0
      (fun _ => [], p) (fun _ => [], p') st rfl hp hn h
    exact ⟨r2, hr2, fun dep => by rw [e1], e2⟩
  refine ⟨fwd students students' hnames hperm, ?_⟩
  intro k
  have hnames' : (students'.map Student.FullName).Nodup := (hperm.map _).nodup_iff.mp hnames
  cases h1 : distribute k quota departments students with
  | some st =>
    obtain ⟨st', hst', _⟩ := fwd students students' hnames hperm k st h1
    rw [hst']
    rfl
  | none =>
    cases h2 : distribute k quota departments students' with
    | none => rfl
    | some st' =>
      obtain ⟨st, hst, _⟩ := fwd students' students hnames' hperm.symm k st' h2
      rw [h1] at hst
      exact absurd hst (by simp)

/-- C20 (admission only to a named preference).  After any number `k` of waves
from empty rosters, every applicant on the roster of a department names that
department at one of the ranks below `k` (ranks 0, 1, 2 after the three waves),
those added by wave `k` naming it at rank `k`; and two pools that differ only in the preferences at rank 3 or beyond give the
same rosters and remaining pool, up to those preferences in the records. -/
theorem admission_only_to_named_preference (quota : Int) (departments : List String) :
    (∀ students k st, distribute k quota departments students = some st →
      ∀ dep, ∀ s ∈ st.1 dep,
        ∃ i : Nat, i < k ∧ index s.Departments (i : Int) = some dep) ∧
    (∀ students k st', distribute (k + 1) quota departments students = some st' →
      ∃ st, distribute k quota departments students = some st ∧
        ∀ dep, ∃ block, st'.1 dep = st.1 dep ++ block ∧
          ∀ s ∈ block, index s.Departments (k : Int) = some dep) ∧
    (∀ students students' : List Student,
      students.map truncatePreferences = students'.map truncatePreferences →
      ∀ k, k ≤ admissionStages →
        (distribute k quota departments students).map truncateState =
          (distribute k quota departments students').map truncateState) := by
  refine ⟨?_, ?_, ?_⟩
  · intro students k st h dep s hs
    exact (distribute_admitted_named quota departments students k st h dep s hs).2.2
  · intro students k st' h
    obtain ⟨st, hst, hp⟩ := distribute_succ_last k quota departments students st' h
    refine ⟨st, hst, fun dep => ?_⟩
    obtain ⟨ap, hap, h1, _⟩ := processDistributionStage_eq_some _ _ _ _ _ _ hp
    obtain ⟨block, hb1, hb2, _, _⟩ := admitLoop_block quota departments ap st.1 dep
    refine ⟨block, by rw [h1]; exact hb1, ?_⟩
    intro s hs
    have hs1 := hb2 s hs
    rw [hap dep] at hs1
    simp only [partitionOf, List.mem_filter, decide_eq_true_eq] at hs1
    exact hs1.2
  · intro students students' heq k hk
    rw [← distribute_truncate quota departments students k hk,
      ← distribute_truncate quota departments students' k hk, heq]

/-! ## Concrete instances, continued -/

/-- The files written for the sample pool after the three waves with quota 2. -/
theorem sample_output :
    (distribute 3 2 mainDepartments samplePool).map
      (fun st => writeAdmissions mainDepartments st.1)
      = some [("Biotech", [("Dan Poe", 85)]), ("Chemistry", [("Cyd Orr", 88)]),
          ("Engineering", []), ("Mathematics", []),
          ("Physics", [("Bob Ray", 90), ("Ann Lee", 85)])] := by
  with_unfolding_all decide

theorem roster_unranked_counterexample :
    ((distribute 3 2 mainDepartments [ann, bob, dan, fay]).map (fun st => st.1 "Biotech")
      = some [fay, dan] ∧
    ¬ (getBestScore fay "Biotech" > getBestScore dan "Biotech" ∨
        (getBestScore fay "Biotech" = getBestScore dan "Biotech" ∧
          (nameLess fay.FullName dan.FullName ∨ fay.FullName = dan.FullName)))) ∧
    ((distribute 1 3 ["Physics", "Physics"] [ann, bob]).map (fun st => st.1 "Physics")
      = some [bob, ann, bob] ∧
    ¬ (getBestScore ann "Physics" > getBestScore bob "Physics" ∨
        (getBestScore ann "Physics" = getBestScore bob "Physics" ∧
          (nameLess ann.FullName bob.FullName ∨ ann.FullName = bob.FullName)))) := by
  have key : ∀ (x y : Student) (dep : String), getBestScore x dep < getBestScore y dep →
      ¬ (getBestScore x dep > getBestScore y dep ∨
        (getBestScore x dep = getBestScore y dep ∧
          (nameLess x.FullName y.FullName ∨ x.FullName = y.FullName))) := by
    intro x y dep h
    rintro (h1 | ⟨h1, _⟩)
    · exact lt_asymm h h1
    · exact absurd h1 (ne_of_lt h)
  refine ⟨⟨by with_unfolding_all decide, key _ _ _ (by with_unfolding_all decide)⟩,
    ⟨by with_unfolding_all decide, key _ _ _ (by with_unfolding_all decide)⟩⟩

theorem wave_block_ranked_witness :
    mainDepartments.Nodup ∧
      ∃ st, distribute 1 2 mainDepartments [ann, bob, dan, fay] = some st ∧
        ∀ dep, (st.1 dep).Pairwise (ranksBeforeOrTied dep) :=
  ⟨by decide,
    (distribute_total 2 mainDepartments [ann, bob, dan, fay] (by decide) 1 (by decide)).elim
      fun st hst => ⟨st, hst,
        (wave_block_ranked 2 mainDepartments (by decide) [ann, bob, dan, fay]).2 st hst⟩⟩

theorem input_order_independent_witness :
    (samplePool.map Student.FullName).Nodup ∧ samplePool.Perm samplePool.reverse ∧
      ∃ st st', distribute 3 1 mainDepartments samplePool = some st ∧
        distribute 3 1 mainDepartments samplePool.reverse = some st' ∧
        ∀ dep, st'.1 dep = st.1 dep :=
  ⟨by decide, (List.reverse_perm samplePool).symm,
    (distribute_total 1 mainDepartments samplePool (by decide) 3 (by decide)).elim
      fun st hst =>
        ((input_order_independent 1 mainDepartments samplePool samplePool.reverse (by decide)
          (List.reverse_perm samplePool).symm).1 3 st hst).elim
          fun st' hst' => ⟨st, st', hst, hst'.1, hst'.2.1⟩⟩

theorem unknown_department_witness :
    ([ann, hal].map Student.FullName).Nodup ∧ hal ∈ [ann, hal] ∧
      (∀ i : Nat, i < admissionStages →
        ∀ dep ∈ mainDepartments, index hal.Departments (i : Int) ≠ some dep) ∧
      ∃ st, distribute 3 1 mainDepartments [ann, hal] = some st ∧
        hal ∈ st.2 ∧ ∀ dep, hal ∉ st.1 dep :=
  ⟨by decide, by with_unfolding_all decide, by decide,
    (distribute_total 1 mainDepartments [ann, hal] (by decide) 3 (by decide)).elim
      fun st hst => ⟨st, hst,
        (unknown_department 1 mainDepartments).2 [ann, hal] hal (by decide)
          (by with_unfolding_all decide) (by decide) 3 (by decide) st hst⟩⟩

theorem quota_nonpositive_witness :
    (-1 : Int) ≤ 0 ∧ ∃ st, distribute 3 (-1) mainDepartments samplePool = some st ∧
      (∀ dep, st.1 dep = []) ∧ st.2 = samplePool :=
  ⟨by decide,
    ((quota_nonpositive (-1) (by decide) mainDepartments samplePool).2 (by decide) 3
      (by decide)).elim
      fun st hst => ⟨st, hst,
        (quota_nonpositive (-1) (by decide) mainDepartments samplePool).1 3 st hst⟩⟩

theorem missing_score_counterexample :
    gus.ExamScores.filter (fun e => decide (e.Subject = "Math")) = [] ∧
    "Math" ∈ depToSubjects "Physics" ∧
    getExamMeanScore gus "Physics" = some 40 ∧
    getExamMeanScore gus "Physics" = getExamMeanScore (withZeroScore gus "Math") "Physics" := by
  refine ⟨rfl, by decide, ?_, ?_⟩ <;> with_unfolding_all decide

theorem missing_score_counts_as_zero_witness :
    "Math" ∈ depToSubjects "Physics" ∧
      gus.ExamScores.filter (fun e => decide (e.Subject = "Math")) = [] ∧
      ∃ mean, getExamMeanScore gus "Physics" = some mean ∧
        getExamMeanScore (withZeroScore gus "Math") "Physics" = some mean :=
  ⟨by decide, rfl,
    (missing_score_counts_as_zero gus "Physics" "Math" (by decide) rfl).elim
      fun mean hmean => ⟨mean, hmean.1, hmean.2.1⟩⟩

theorem department_order_independent_witness :
    mainDepartments.Nodup ∧ mainDepartments.Perm mainDepartments.reverse ∧
      processDistributionStage 0 1 mainDepartments (fun _ => []) samplePool =
        processDistributionStage 0 1 mainDepartments.reverse (fun _ => []) samplePool :=
  ⟨by decide, (List.reverse_perm mainDepartments).symm,
    department_order_independent 0 1 mainDepartments mainDepartments.reverse (by decide)
      (List.reverse_perm mainDepartments).symm (fun _ => []) samplePool⟩

theorem no_seat_wasted_witness :
    ∃ st, processDistributionStage 0 1 mainDepartments (fun _ => []) samplePool = some st ∧
      ann ∈ st.2 ∧ "Physics" ∈ mainDepartments ∧
      index ann.Departments 0 = some "Physics" ∧
      (1 : Int) ≤ ((st.1 "Physics").length : Int) ∧
      ∃ block, st.1 "Physics" = [] ++ block ∧ ∀ t ∈ block, ranksBefore "Physics" t ann :=
  ⟨_, rfl, by with_unfolding_all decide, by decide, by decide,
    no_seat_wasted 0 1 mainDepartments (fun _ => []) samplePool _ rfl ann
      (by with_unfolding_all decide) "Physics" (by decide) (by decide)⟩

/-! ## What a wave of the run admits -/

theorem admitLoop_length_le_max (quota : Int) (deps : List String)
    (applicants admitted : Rosters)
    (h : ∀ dep, ((admitted dep).length : Int) ≤ max quota 0) (dep : String) :
    ((admitLoop quota deps applicants admitted dep).length : Int) ≤ max quota 0 := by
  induction deps generalizing applicants admitted with
  | nil => exact h dep
  | cons d ds ih =>
    rw [admitLoop_cons]
    apply ih
    intro e
    by_cases hd : e = d
    · subst hd
      rw [Function.update_same, List.length_append, List.length_take]
      have := h e
      omega
    · rw [Function.update_noteq hd]
      exact h e

/-- On a run from empty rosters no roster is longer than `max quota 0`, so the
subtraction `quota - len(admitted[dep])` lies between `min quota 0` and `quota`. -/
theorem distribute_length_le_max (quota : Int) (departments : List String)
    (students : List Student) (k : Nat) (st : Rosters × List Student)
    (h : distribute k quota departments students = some st) (dep : String) :
    ((st.1 dep).length : Int) ≤ max quota 0 := by
  refine runStages_invariant (fun st => ∀ dep, ((st.1 dep).length : Int) ≤ max quota 0)
    quota departments ?_ k 0 (fun _ => [], students) st ?_ h dep
  · intro stage s s' hs hp d
    obtain ⟨ap, _, h1, _⟩ := processDistributionStage_eq_some _ _ _ _ _ _ hp
    rw [h1]
    exact admitLoop_length_le_max quota departments ap s.1 hs d
  · intro d
    simp

/-- C3 (what a wave admits).  On a run from empty rosters with a duplicate-free
department list (as the list of `main` is), wave `k` leaves the roster of each
listed department as the roster before the wave followed by the first
`min(capacity, partitionSize)` applicants of the ranked partition of the
department (the remaining applicants whose preference at rank `k` is that
department, in ranking order), where `capacity = quota - (roster length before)`;
the roster is unchanged when the capacity is not positive or the partition is
empty.  With pairwise distinct names in the partition the ranked partition is
the strictly ranked sequence the sort returns.  For a 64-bit `quota` the
capacity is a 64-bit number. -/
theorem stage_admits_ranked_front (quota : Int) (departments : List String)
    (hnd : departments.Nodup) (students : List Student) (k : Nat)
    (st' : Rosters × List Student)
    (h : distribute (k + 1) quota departments students = some st') :
    ∃ st, distribute k quota departments students = some st ∧
      processDistributionStage (k : Int) quota departments st.1 st.2 = some st' ∧
      ∀ dep ∈ departments, ∃ ranked : List Student,
        ranked.Perm (partitionOf (k : Int) dep st.2) ∧
        ranked.Pairwise (ranksBeforeOrTied dep) ∧
        st'.1 dep = st.1 dep ++ ranked.take
          (min (quota - ((st.1 dep).length : Int))
            ((partitionOf (k : Int) dep st.2).length : Int)).toNat ∧
        (quota - ((st.1 dep).length : Int) ≤ 0 ∨ partitionOf (k : Int) dep st.2 = [] →
          st'.1 dep = st.1 dep) ∧
        (((partitionOf (k : Int) dep st.2).map Student.FullName).Nodup →
          ranked = sortFunc (cmpStudents dep) (partitionOf (k : Int) dep st.2) ∧
          ranked.Pairwise (ranksBefore dep)) ∧
        (-9223372036854775808 ≤ quota → quota < 9223372036854775808 →
          -9223372036854775808 ≤ quota - ((st.1 dep).length : Int) ∧
          quota - ((st.1 dep).length : Int) < 9223372036854775808) := by
  obtain ⟨st, hst, hp⟩ := distribute_succ_last k quota departments students st' h
  refine ⟨st, hst, hp, ?_⟩
  intro dep hdep
  obtain ⟨ap, hap, h1, _⟩ := processDistributionStage_eq_some _ _ _ _ _ _ hp
  have key := admitLoop_of_nodup quota departments ap st.1 hnd dep hdep
  rw [← h1, hap dep] at key
  refine ⟨sortFunc (cmpStudents dep) (partitionOf (k : Int) dep st.2), sortFunc_perm _ _,
    sortFunc_ranked_tied _ _, key, ?_, ?_, ?_⟩
  · intro hc
    rw [key]
    rcases hc with hc | hc
    · have h0 : (min (quota - ((st.1 dep).length : Int))
          ((partitionOf (k : Int) dep st.2).length : Int)).toNat = 0 := by
        apply Int.toNat_eq_zero.mpr
        exact le_trans (min_le_left _ _) hc
      rw [h0, List.take_zero, List.append_nil]
    · rw [hc, sortFunc_nil, List.take_nil, List.append_nil]
  · intro hnames
    exact ⟨rfl, sortFunc_ranked dep _ hnames⟩
  · intro hlo hhi
    have hlen := distribute_length_le_max quota departments students k st hst dep
    omega

theorem stage_admits_ranked_front_witness :
    mainDepartments.Nodup ∧
      ∃ st', distribute 2 2 mainDepartments [ann, bob, dan, fay] = some st' ∧
        ∃ st, distribute 1 2 mainDepartments [ann, bob, dan, fay] = some st ∧
          ∀ dep ∈ mainDepartments, ∃ ranked : List Student,
            ranked.Perm (partitionOf 1 dep st.2) ∧
            ranked.Pairwise (ranksBeforeOrTied dep) ∧
            st'.1 dep = st.1 dep ++ ranked.take
              (min ((2 : Int) - ((st.1 dep).length : Int))
                ((partitionOf 1 dep st.2).length : Int)).toNat :=
  ⟨by decide,
    (distribute_total 2 mainDepartments [ann, bob, dan, fay] (by decide) 2 (by decide)).elim
      fun st' hst' =>
        ⟨st', hst',
          (stage_admits_ranked_front 2 mainDepartments (by decide) [ann, bob, dan, fay] 1 st'
            hst').elim
            fun st hst => ⟨st, hst.1, fun dep hdep =>
              (hst.2.2 dep hdep).elim fun ranked hr => ⟨ranked, hr.1, hr.2.1, hr.2.2.1⟩⟩⟩⟩

/-- Wave 1 on the four applicants with quota 2: Dan Poe joins Fay Kim on the
Biotech roster, after her. -/
theorem sample_wave1 :
    (distribute 1 2 mainDepartments [ann, bob, dan, fay]).map
        (fun st => (st.1 "Biotech", partitionOf 1 "Biotech" st.2)) = some ([fay], [dan]) ∧
    (distribute 2 2 mainDepartments [ann, bob, dan, fay]).map
        (fun st => st.1 "Biotech") = some [fay, dan] := by
  constructor <;> with_unfolding_all decide

end Admission
